import Mathlib

/-! Verification of the feature-extraction core of the pnl_parsing
repository (notebook 5_feature_extraction): a compressed-sparse-row (CSR)
matrix model, the row-shift primitive csr_shift, the group mask
is_same_after_shift, the windowed accumulator csr_cum_sum and the feature
assembly extract_features, together with the testable properties stated
in the design document. -/

/-- Compressed sparse row matrix: logical shape (rows, cols), row-pointer
array indptr, and column indices with stored values in parallel arrays. -/
structure Csr where
  rows : Nat
  cols : Nat
  indptr : List Nat
  indices : List Nat
  data : List Int
deriving Repr, DecidableEq

/-- Value of the row-pointer array at position i (0 when out of range). -/
def Csr.ptr (A : Csr) (i : Nat) : Nat := A.indptr.getD i 0

/-- Column indices stored for row r. -/
def Csr.rowIndices (A : Csr) (r : Nat) : List Nat :=
  (A.indices.take (A.ptr (r + 1))).drop (A.ptr r)

/-- Values stored for row r. -/
def Csr.rowData (A : Csr) (r : Nat) : List Int :=
  (A.data.take (A.ptr (r + 1))).drop (A.ptr r)

/-- Stored (column, value) pairs of row r. -/
def Csr.row (A : Csr) (r : Nat) : List (Nat × Int) :=
  (A.rowIndices r).zip (A.rowData r)

/-- Logical entry at (r, c): the sum of the stored values of row r lying
in column c. -/
def Csr.entry (A : Csr) (r c : Nat) : Int :=
  (((A.row r).filter (fun p => p.1 == c)).map Prod.snd).sum

/-- Well-formedness of a CSR structure in the sense of scipy's
check_format after pruning: the row-pointer array has length rows + 1,
starts at 0, is non-decreasing, its last value is the storage size, the
index and data arrays have equal length, column indices are in range, and
the column indices of every row are strictly sorted. -/
def Csr.wf (A : Csr) : Prop :=
  A.indptr.length = A.rows + 1 ∧
  A.ptr 0 = 0 ∧
  (∀ i, i < A.rows → A.ptr i ≤ A.ptr (i + 1)) ∧
  A.ptr A.rows = A.indices.length ∧
  A.indices.length = A.data.length ∧
  (∀ c ∈ A.indices, c < A.cols) ∧
  (∀ r, r < A.rows → ∀ t, t < (A.rowIndices r).length - 1 →
    (A.rowIndices r).getD t 0 < (A.rowIndices r).getD (t + 1) 0)

instance (A : Csr) : Decidable A.wf :=
  inferInstanceAs (Decidable (A.indptr.length = A.rows + 1 ∧
    A.ptr 0 = 0 ∧
    (∀ i, i < A.rows → A.ptr i ≤ A.ptr (i + 1)) ∧
    A.ptr A.rows = A.indices.length ∧
    A.indices.length = A.data.length ∧
    (∀ c ∈ A.indices, c < A.cols) ∧
    (∀ r, r < A.rows → ∀ t, t < (A.rowIndices r).length - 1 →
      (A.rowIndices r).getD t 0 < (A.rowIndices r).getD (t + 1) 0)))

/-- Row-shift primitive csr_shift from the notebook: shifts all rows of a
CSR matrix by one row down (down = true) or up, vacating the boundary row.
Negative numpy indices indptr[-1] and indptr[-2] are rendered through the
array length; the final take mirrors the prune that scipy's check_format
performs on the storage lying past the last row pointer. -/
def csr_shift (csr : Csr) (down : Bool) : Csr :=
  let y :=
    if down then
      -- add an empty row at the beginning of the index pointer array, drop the last row
      { csr with
        indptr := 0 :: csr.indptr.dropLast,
        -- if the last row has values, drop them from index and data arrays
        indices :=
          if csr.indptr.getD (csr.indptr.length - 1) 0 ≠ csr.indptr.getD (csr.indptr.length - 2) 0
          then csr.indices.dropLast else csr.indices,
        data :=
          if csr.indptr.getD (csr.indptr.length - 1) 0 ≠ csr.indptr.getD (csr.indptr.length - 2) 0
          then csr.data.dropLast else csr.data }
    else
      -- drop the first row from the index pointer array, subtract its value from the rest,
      -- and append an empty row (same value as the one before it) at the end
      let m := csr.indptr.getD 1 0
      let indptr1 := 0 :: (csr.indptr.drop 2).map (fun p => p - m)
      { csr with
        indptr := indptr1 ++ [indptr1.getD (indptr1.length - 1) 0],
        -- if the first row had values, drop them from index and data arrays
        indices := if m ≠ 0 then csr.indices.drop m else csr.indices,
        data := if m ≠ 0 then csr.data.drop m else csr.data }
  let nnz := y.indptr.getD (y.indptr.length - 1) 0
  { y with indices := y.indices.take nnz, data := y.data.take nnz }

/-- Iterated row shift: the working copy of csr_cum_sum after d
iterations of cumulative shifting. -/
def shift_iter (A : Csr) (down : Bool) : Nat → Csr
  | 0 => A
  | d + 1 => csr_shift (shift_iter A down d) down

/-- Model of numpy.roll on a one-dimensional array: entry i of the result
is entry ((i - shift) mod length) of the input. -/
def np_roll (v : List Nat) (shift : Int) : List Nat :=
  (List.range v.length).map (fun (i : Nat) =>
    v.getD ((((i : Int) - shift) % (v.length : Int)).toNat) 0)

/-- Group mask is_same_after_shift from the notebook: the elementwise
equality of a vector with itself rolled by the given shift, as 0/1
integers. -/
def is_same_after_shift (vector : List Nat) (shift : Int) : List Int :=
  (List.range vector.length).map (fun i =>
    if vector.getD i 0 = (np_roll vector shift).getD i 0 then 1 else 0)

/-- Modelled from the spec: the Category Encoder is scikit-learn's
OneHotEncoder in the source notebook, an external library whose code is
not part of this repository. Stored column indices: one entry per token
whose label occurs in the vocabulary, at that label's vocabulary
position. -/
def one_hot_indices (words vocab : List Nat) : List Nat :=
  words.filterMap (fun w => if w ∈ vocab then some (vocab.indexOf w) else none)

/-- Modelled from the spec: the Category Encoder's sparse indicator
structure of shape (N, K) with entry (i, c) = 1 iff token i's label
equals vocabulary entry c; tokens matching no vocabulary label contribute
an all-zero row. -/
def one_hot_csr (words vocab : List Nat) : Csr :=
  { rows := words.length
    cols := vocab.length
    indptr := List.scanl (fun s w => s + if w ∈ vocab then 1 else 0) 0 words
    indices := one_hot_indices words vocab
    data := List.replicate (one_hot_indices words vocab).length 1 }

/-- Error conditions of the extraction pipeline named by the spec. -/
inductive ExtractError where
  | InvalidVocabulary
  | InvalidWindow
deriving Repr, DecidableEq

/-- Modelled from the spec: the Category Encoder fails with an
InvalidVocabulary condition if the vocabulary contains duplicate labels,
and otherwise returns the indicator structure. -/
def one_hot_encode (words vocab : List Nat) : Except ExtractError Csr :=
  if vocab.Nodup then Except.ok (one_hot_csr words vocab)
  else Except.error ExtractError.InvalidVocabulary

/-- One iteration of the loop body of csr_cum_sum at distance d: shift
the working copy one further row, build the group mask at distance d, and
add the masked shifted matrix into the accumulator; scipy's elementwise
product with the mask column and the matrix sum are taken entrywise. -/
def cum_sum_step (company_vector : List Nat) (above : Bool)
    (st : Csr × (Nat → Nat → Int)) (d : Nat) : Csr × (Nat → Nat → Int) :=
  let shifted := csr_shift st.1 above
  let mask := is_same_after_shift company_vector ((d : Int) * (if above then 1 else -1))
  (shifted, fun i c => st.2 i c + mask.getD i 0 * shifted.entry i c)

/-- State of the csr_cum_sum loop after the iterations for distances
1..w: the cumulatively shifted working copy and the accumulator. -/
def cum_sum_state (onehot_csr : Csr) (company_vector : List Nat) (above : Bool)
    (w : Nat) : Csr × (Nat → Nat → Int) :=
  ((List.range w).map (fun k => k + 1)).foldl (cum_sum_step company_vector above)
    (onehot_csr, fun _ _ => 0)

/-- Windowed accumulator csr_cum_sum from the notebook: for each distance
1..window_size, shift, mask and accumulate; returns the accumulated
entries. -/
def csr_cum_sum (onehot_csr : Csr) (company_vector : List Nat)
    (window_size : Nat) (above : Bool) : Nat → Nat → Int :=
  (cum_sum_state onehot_csr company_vector above window_size).2

/-- Feature assembly extract_features from the notebook: horizontal
stacking of the above-direction and the below-direction accumulator into
the (N, 2K) output. -/
def extract_features (onehot_csr : Csr) (company_vec : List Nat)
    (window_size : Nat) : Nat → Nat → Int :=
  fun i c =>
    if c < onehot_csr.cols then csr_cum_sum onehot_csr company_vec window_size true i c
    else csr_cum_sum onehot_csr company_vec window_size false i (c - onehot_csr.cols)

/-- Mask variant following the specification's words: the rotated
comparison with its first (above) respectively last (below) d entries
forced to 0. -/
def is_same_after_shift_forced (vector : List Nat) (d : Nat) (above : Bool) : List Int :=
  let m := is_same_after_shift vector ((d : Int) * (if above then 1 else -1))
  (List.range vector.length).map (fun i =>
    if above then (if i < d then 0 else m.getD i 0)
    else (if vector.length ≤ i + d then 0 else m.getD i 0))

/-- Accumulator loop body using the boundary-forced mask instead of the
plain rotated comparison. -/
def cum_sum_step_forced (company_vector : List Nat) (above : Bool)
    (st : Csr × (Nat → Nat → Int)) (d : Nat) : Csr × (Nat → Nat → Int) :=
  let shifted := csr_shift st.1 above
  let mask := is_same_after_shift_forced company_vector d above
  (shifted, fun i c => st.2 i c + mask.getD i 0 * shifted.entry i c)

/-- State of the boundary-forced accumulator loop after distances 1..w. -/
def cum_sum_state_forced (onehot_csr : Csr) (company_vector : List Nat) (above : Bool)
    (w : Nat) : Csr × (Nat → Nat → Int) :=
  ((List.range w).map (fun k => k + 1)).foldl (cum_sum_step_forced company_vector above)
    (onehot_csr, fun _ _ => 0)

/-- Windowed accumulator computed with the boundary-forced mask. -/
def csr_cum_sum_forced (onehot_csr : Csr) (company_vector : List Nat)
    (window_size : Nat) (above : Bool) : Nat → Nat → Int :=
  (cum_sum_state_forced onehot_csr company_vector above window_size).2

/-- Direct sliding-window oracle stated by the spec: entry i counts the
positions j in the same group at directed distance between 1 and w whose
token label equals the given category label. -/
def direct_window_count (words company : List Nat) (w : Nat) (above : Bool)
    (i lbl : Nat) : Nat :=
  ((Finset.range words.length).filter (fun j =>
    company.getD j 0 = company.getD i 0 ∧
    (if above then 1 ≤ i - j ∧ i - j ≤ w else 1 ≤ j - i ∧ j - i ≤ w) ∧
    words.getD j 0 = lbl)).card

/-- Group identifiers form contiguous runs: between two equal identifiers
every identifier is the same. -/
def ContiguousRuns (v : List Nat) : Prop :=
  ∀ k, k < v.length → ∀ j, j ≤ k → ∀ i, i ≤ j →
    v.getD i 0 = v.getD k 0 → v.getD j 0 = v.getD i 0

instance (v : List Nat) : Decidable (ContiguousRuns v) :=
  inferInstanceAs (Decidable (∀ k, k < v.length → ∀ j, j ≤ k → ∀ i, i ≤ j →
    v.getD i 0 = v.getD k 0 → v.getD j 0 = v.getD i 0))

/-- Position i is the first position of a group's run. -/
def IsGroupStart (v : List Nat) (i : Nat) : Prop :=
  i < v.length ∧ (i = 0 ∨ v.getD (i - 1) 0 ≠ v.getD i 0)

/-- Position i is the last position of a group's run. -/
def IsGroupEnd (v : List Nat) (i : Nat) : Prop :=
  i < v.length ∧ (i + 1 = v.length ∨ v.getD (i + 1) 0 ≠ v.getD i 0)

/-- The vector holds at least two distinct group identifiers. -/
def HasTwoGroups (v : List Nat) : Prop :=
  ∃ i, i < v.length ∧ ∃ j, j < v.length ∧ v.getD i 0 ≠ v.getD j 0

instance (v : List Nat) : Decidable (HasTwoGroups v) :=
  inferInstanceAs (Decidable (∃ i, i < v.length ∧ ∃ j, j < v.length ∧
    v.getD i 0 ≠ v.getD j 0))

/-! Helper lemmas about list indexing with defaults. -/

theorem getD_of_length_le {α : Type} {l : List α} {i : Nat} (d : α) (h : l.length ≤ i) :
    l.getD i d = d := by
  simp [List.getD_eq_getElem?_getD, List.getElem?_eq_none h]

theorem getD_map_range {α : Type} (f : Nat → α) {n i : Nat} (d : α) (h : i < n) :
    ((List.range n).map f).getD i d = f i := by
  simp [List.getD_eq_getElem?_getD, List.getElem?_range h]

theorem getD_take {α : Type} {l : List α} {k i : Nat} (d : α) (h : i < k) :
    (l.take k).getD i d = l.getD i d := by
  simp [List.getD_eq_getElem?_getD, List.getElem?_take_of_lt h]

theorem getD_drop {α : Type} (l : List α) (k i : Nat) (d : α) :
    (l.drop k).getD i d = l.getD (k + i) d := by
  simp [List.getD_eq_getElem?_getD, List.getElem?_drop]

theorem getD_dropLast {α : Type} {l : List α} {i : Nat} (d : α) (h : i < l.length - 1) :
    l.dropLast.getD i d = l.getD i d := by
  rw [List.dropLast_eq_take]
  exact getD_take d h

theorem getD_append_left {α : Type} {l1 l2 : List α} {i : Nat} (d : α) (h : i < l1.length) :
    (l1 ++ l2).getD i d = l1.getD i d := by
  simp [List.getD_eq_getElem?_getD, List.getElem?_append_left h]

theorem getD_append_right {α : Type} {l1 l2 : List α} {i : Nat} (d : α) (h : l1.length ≤ i) :
    (l1 ++ l2).getD i d = l2.getD (i - l1.length) d := by
  simp [List.getD_eq_getElem?_getD, List.getElem?_append_right h]

/-! Basic facts about the shift primitive. -/

theorem csr_shift_rows (A : Csr) (down : Bool) : (csr_shift A down).rows = A.rows := by
  cases down <;> rfl

theorem csr_shift_cols (A : Csr) (down : Bool) : (csr_shift A down).cols = A.cols := by
  cases down <;> rfl

theorem shift_down_indptr (A : Csr) : (csr_shift A true).indptr = 0 :: A.indptr.dropLast := rfl

theorem Csr.ptr_mono {A : Csr} (h : A.wf) : ∀ {i j : Nat}, i ≤ j → j ≤ A.rows → A.ptr i ≤ A.ptr j := by
  intro i j hij hj
  induction j, hij using Nat.le_induction with
  | base => exact Nat.le_refl _
  | succ j hij ih =>
      exact Nat.le_trans (ih (Nat.le_of_succ_le hj)) (h.2.2.1 j (Nat.lt_of_succ_le hj))

theorem Csr.ptr_oob {A : Csr} (h : A.indptr.length = A.rows + 1) {i : Nat}
    (hi : A.rows + 1 ≤ i) : A.ptr i = 0 := by
  unfold Csr.ptr
  exact getD_of_length_le 0 (h ▸ hi)

/-! Characterization of the downward shift on well-formed inputs. -/

theorem shift_down_ptr_zero (A : Csr) : (csr_shift A true).ptr 0 = 0 := rfl

theorem shift_down_ptr_succ {A : Csr} (hlen : A.indptr.length = A.rows + 1) {i : Nat}
    (hi : i < A.rows) : (csr_shift A true).ptr (i + 1) = A.ptr i := by
  show (0 :: A.indptr.dropLast).getD (i + 1) 0 = A.ptr i
  rw [List.getD_cons_succ]
  exact getD_dropLast 0 (by omega)

theorem shift_down_ptr_big {A : Csr} (hlen : A.indptr.length = A.rows + 1) {i : Nat}
    (hi : A.rows < i) : (csr_shift A true).ptr i = 0 := by
  show (0 :: A.indptr.dropLast).getD i 0 = 0
  refine getD_of_length_le 0 ?_
  simp only [List.length_cons, List.length_dropLast]
  omega

theorem shift_down_indices_eq {A : Csr} (h : A.wf) (hn : 1 ≤ A.rows) :
    (csr_shift A true).indices = A.indices.take (A.ptr (A.rows - 1)) := by
  have start : (csr_shift A true).indices =
      (if A.indptr.getD (A.indptr.length - 1) 0 ≠ A.indptr.getD (A.indptr.length - 2) 0
       then A.indices.dropLast else A.indices).take
        ((0 :: A.indptr.dropLast).getD ((0 :: A.indptr.dropLast).length - 1) 0) := rfl
  have hlen := h.1
  have e1 : (0 :: A.indptr.dropLast).length - 1 = A.rows := by
    simp only [List.length_cons, List.length_dropLast]
    omega
  have e2 : (0 :: A.indptr.dropLast).getD A.rows 0 = A.ptr (A.rows - 1) := by
    obtain ⟨n, hrows⟩ : ∃ n, A.rows = n + 1 := ⟨A.rows - 1, (Nat.succ_pred_eq_of_pos hn).symm⟩
    rw [hrows, List.getD_cons_succ]
    have : n = (n + 1) - 1 := by omega
    rw [← this]
    exact getD_dropLast 0 (by omega)
  rw [start, e1, e2]
  by_cases hdel : A.indptr.getD (A.indptr.length - 1) 0 ≠ A.indptr.getD (A.indptr.length - 2) 0
  · rw [if_pos hdel]
    have hne : A.ptr A.rows ≠ A.ptr (A.rows - 1) := by
      have q1 : A.indptr.length - 1 = A.rows := by omega
      have q2 : A.indptr.length - 2 = A.rows - 1 := by omega
      rw [q1, q2] at hdel
      exact hdel
    have hlt : A.ptr (A.rows - 1) < A.ptr A.rows :=
      Nat.lt_of_le_of_ne (Csr.ptr_mono h (by omega) (Nat.le_refl _)) (Ne.symm hne)
    rw [List.dropLast_eq_take, List.take_take]
    congr 1
    have hnnz := h.2.2.2.1
    omega
  · rw [if_neg hdel]

theorem shift_down_data_eq {A : Csr} (h : A.wf) (hn : 1 ≤ A.rows) :
    (csr_shift A true).data = A.data.take (A.ptr (A.rows - 1)) := by
  have start : (csr_shift A true).data =
      (if A.indptr.getD (A.indptr.length - 1) 0 ≠ A.indptr.getD (A.indptr.length - 2) 0
       then A.data.dropLast else A.data).take
        ((0 :: A.indptr.dropLast).getD ((0 :: A.indptr.dropLast).length - 1) 0) := rfl
  have hlen := h.1
  have e1 : (0 :: A.indptr.dropLast).length - 1 = A.rows := by
    simp only [List.length_cons, List.length_dropLast]
    omega
  have e2 : (0 :: A.indptr.dropLast).getD A.rows 0 = A.ptr (A.rows - 1) := by
    obtain ⟨n, hrows⟩ : ∃ n, A.rows = n + 1 := ⟨A.rows - 1, (Nat.succ_pred_eq_of_pos hn).symm⟩
    rw [hrows, List.getD_cons_succ]
    have : n = (n + 1) - 1 := by omega
    rw [← this]
    exact getD_dropLast 0 (by omega)
  rw [start, e1, e2]
  by_cases hdel : A.indptr.getD (A.indptr.length - 1) 0 ≠ A.indptr.getD (A.indptr.length - 2) 0
  · rw [if_pos hdel]
    have hne : A.ptr A.rows ≠ A.ptr (A.rows - 1) := by
      have q1 : A.indptr.length - 1 = A.rows := by omega
      have q2 : A.indptr.length - 2 = A.rows - 1 := by omega
      rw [q1, q2] at hdel
      exact hdel
    have hlt : A.ptr (A.rows - 1) < A.ptr A.rows :=
      Nat.lt_of_le_of_ne (Csr.ptr_mono h (by omega) (Nat.le_refl _)) (Ne.symm hne)
    rw [List.dropLast_eq_take, List.take_take]
    congr 1
    have hnnz := h.2.2.2.1
    have hld := h.2.2.2.2.1
    omega
  · rw [if_neg hdel]

theorem rowIndices_length {A : Csr} (h : A.wf) {r : Nat} (hr : r < A.rows) :
    (A.rowIndices r).length = A.ptr (r + 1) - A.ptr r := by
  unfold Csr.rowIndices
  rw [List.length_drop, List.length_take]
  have h1 : A.ptr (r + 1) ≤ A.indices.length := by
    rw [← h.2.2.2.1]
    exact Csr.ptr_mono h hr (Nat.le_refl _)
  omega

theorem shift_down_rowIndices {A : Csr} (h : A.wf) (hn : 1 ≤ A.rows) (r : Nat) :
    (csr_shift A true).rowIndices r =
      if 1 ≤ r ∧ r < A.rows then A.rowIndices (r - 1) else [] := by
  by_cases h1 : 1 ≤ r ∧ r < A.rows
  · obtain ⟨hr1, hrn⟩ := h1
    rw [if_pos ⟨hr1, hrn⟩]
    obtain ⟨r', rfl⟩ : ∃ r', r = r' + 1 := ⟨r - 1, (Nat.succ_pred_eq_of_pos hr1).symm⟩
    unfold Csr.rowIndices
    rw [shift_down_ptr_succ h.1 hrn, shift_down_ptr_succ h.1 (by omega),
      shift_down_indices_eq h hn, List.take_take]
    have hmin : min (A.ptr (r' + 1)) (A.ptr (A.rows - 1)) = A.ptr (r' + 1) :=
      Nat.min_eq_left (Csr.ptr_mono h (by omega) (by omega))
    rw [hmin]
    simp
  · rw [if_neg h1]
    rcases Nat.eq_zero_or_pos r with hr0 | hrpos
    · subst hr0
      unfold Csr.rowIndices
      rw [shift_down_ptr_succ h.1 (by omega)]
      rw [h.2.1]
      simp
    · have hge : A.rows ≤ r := by
        by_cases hx : r < A.rows
        · exact absurd ⟨hrpos, hx⟩ h1
        · omega
      unfold Csr.rowIndices
      have hp : (csr_shift A true).ptr (r + 1) = 0 :=
        shift_down_ptr_big h.1 (show A.rows < r + 1 by omega)
      rw [hp]
      simp

theorem shift_down_rowData {A : Csr} (h : A.wf) (hn : 1 ≤ A.rows) (r : Nat) :
    (csr_shift A true).rowData r =
      if 1 ≤ r ∧ r < A.rows then A.rowData (r - 1) else [] := by
  by_cases h1 : 1 ≤ r ∧ r < A.rows
  · obtain ⟨hr1, hrn⟩ := h1
    rw [if_pos ⟨hr1, hrn⟩]
    obtain ⟨r', rfl⟩ : ∃ r', r = r' + 1 := ⟨r - 1, (Nat.succ_pred_eq_of_pos hr1).symm⟩
    unfold Csr.rowData
    rw [shift_down_ptr_succ h.1 hrn, shift_down_ptr_succ h.1 (by omega),
      shift_down_data_eq h hn, List.take_take]
    have hmin : min (A.ptr (r' + 1)) (A.ptr (A.rows - 1)) = A.ptr (r' + 1) :=
      Nat.min_eq_left (Csr.ptr_mono h (by omega) (by omega))
    rw [hmin]
    simp
  · rw [if_neg h1]
    rcases Nat.eq_zero_or_pos r with hr0 | hrpos
    · subst hr0
      unfold Csr.rowData
      rw [shift_down_ptr_succ h.1 (by omega)]
      rw [h.2.1]
      simp
    · have hge : A.rows ≤ r := by
        by_cases hx : r < A.rows
        · exact absurd ⟨hrpos, hx⟩ h1
        · omega
      unfold Csr.rowData
      have hp : (csr_shift A true).ptr (r + 1) = 0 :=
        shift_down_ptr_big h.1 (show A.rows < r + 1 by omega)
      rw [hp]
      simp

theorem shift_down_nnz {A : Csr} (h : A.wf) (hn : 1 ≤ A.rows) :
    (csr_shift A true).indices.length =
      A.indices.length - (A.rowIndices (A.rows - 1)).length := by
  rw [shift_down_indices_eq h hn, List.length_take,
    rowIndices_length h (Nat.sub_lt hn Nat.one_pos)]
  have e1 : A.rows - 1 + 1 = A.rows := by omega
  rw [e1]
  have h1 : A.ptr (A.rows - 1) ≤ A.ptr A.rows := Csr.ptr_mono h (by omega) (Nat.le_refl _)
  have h2 := h.2.2.2.1
  omega

theorem shift_down_wf {A : Csr} (h : A.wf) (hn : 1 ≤ A.rows) : (csr_shift A true).wf := by
  have hrows : (csr_shift A true).rows = A.rows := csr_shift_rows A true
  refine ⟨?_, ?_, ?_, ?_, ?_, ?_, ?_⟩
  · show (0 :: A.indptr.dropLast).length = (csr_shift A true).rows + 1
    rw [hrows]
    simp only [List.length_cons, List.length_dropLast]
    have := h.1
    omega
  · exact shift_down_ptr_zero A
  · intro i hi
    rw [hrows] at hi
    cases i with
    | zero => rw [shift_down_ptr_zero]; exact Nat.zero_le _
    | succ j =>
        rw [shift_down_ptr_succ h.1 (by omega), shift_down_ptr_succ h.1 hi]
        exact Csr.ptr_mono h (by omega) (by omega)
  · rw [hrows]
    obtain ⟨n, hrn⟩ : ∃ n, A.rows = n + 1 := ⟨A.rows - 1, (Nat.succ_pred_eq_of_pos hn).symm⟩
    rw [hrn, shift_down_ptr_succ h.1 (by omega), shift_down_indices_eq h hn,
      List.length_take]
    have h1 : A.ptr n ≤ A.ptr A.rows := Csr.ptr_mono h (by omega) (Nat.le_refl _)
    have h2 := h.2.2.2.1
    have e : A.rows - 1 = n := by omega
    rw [e]
    omega
  · rw [shift_down_indices_eq h hn, shift_down_data_eq h hn,
      List.length_take, List.length_take]
    have h2 := h.2.2.2.2.1
    omega
  · intro c hc
    rw [csr_shift_cols]
    rw [shift_down_indices_eq h hn] at hc
    exact h.2.2.2.2.2.1 c (List.mem_of_mem_take hc)
  · intro r hr
    rw [hrows] at hr
    have hri := shift_down_rowIndices h hn r
    rw [hri]
    by_cases h1 : 1 ≤ r ∧ r < A.rows
    · rw [if_pos h1]
      exact h.2.2.2.2.2.2 (r - 1) (by omega)
    · rw [if_neg h1]
      intro t ht
      simp at ht

/-! Characterization of the upward shift on well-formed inputs. -/

theorem getD_map_sub (l : List Nat) (m j : Nat) (h : j < l.length) :
    (l.map (fun p => p - m)).getD j 0 = l.getD j 0 - m := by
  simp [List.getD_eq_getElem?_getD, List.getElem?_eq_getElem h]

theorem shift_up_indptr (A : Csr) :
    (csr_shift A false).indptr =
      (0 :: (A.indptr.drop 2).map (fun p => p - A.indptr.getD 1 0)) ++
        [(0 :: (A.indptr.drop 2).map (fun p => p - A.indptr.getD 1 0)).getD
          ((0 :: (A.indptr.drop 2).map (fun p => p - A.indptr.getD 1 0)).length - 1) 0] := rfl

theorem shift_up_ptr_le {A : Csr} (h : A.wf) (hn : 1 ≤ A.rows) {i : Nat}
    (hi : i ≤ A.rows - 1) : (csr_shift A false).ptr i = A.ptr (i + 1) - A.ptr 1 := by
  have hlen := h.1
  show ((0 :: (A.indptr.drop 2).map (fun p => p - A.indptr.getD 1 0)) ++ _).getD i 0 = _
  rw [getD_append_left]
  · cases i with
    | zero =>
        rw [List.getD_cons_zero]
        have : A.ptr 1 - A.ptr 1 = 0 := Nat.sub_self _
        have hp : A.ptr (0 + 1) = A.ptr 1 := rfl
        omega
    | succ j =>
        rw [List.getD_cons_succ, getD_map_sub _ _ _ (by simp [hlen]; omega),
          getD_drop]
        have : 2 + j = j + 1 + 1 := by omega
        rw [this]
        rfl
  · simp only [List.length_cons, List.length_map, List.length_drop, hlen]
    omega

theorem shift_up_ptr_last {A : Csr} (h : A.wf) (hn : 1 ≤ A.rows) :
    (csr_shift A false).ptr A.rows = A.ptr A.rows - A.ptr 1 := by
  have hlen := h.1
  show ((0 :: (A.indptr.drop 2).map (fun p => p - A.indptr.getD 1 0)) ++ _).getD A.rows 0 = _
  rw [getD_append_right]
  · have hl : (0 :: (A.indptr.drop 2).map (fun p => p - A.indptr.getD 1 0)).length = A.rows := by
      simp only [List.length_cons, List.length_map, List.length_drop, hlen]
      omega
    rw [hl, Nat.sub_self, List.getD_cons_zero]
    rcases Nat.lt_or_ge 1 A.rows with h2 | h2
    · obtain ⟨k, hk⟩ : ∃ k, A.rows - 1 = k + 1 := ⟨A.rows - 2, by omega⟩
      rw [hk, List.getD_cons_succ, getD_map_sub _ _ _ (by simp [hlen]; omega), getD_drop]
      have e2 : 2 + k = A.rows := by omega
      rw [e2]
      rfl
    · have e : A.rows = 1 := by omega
      rw [e]
      have h11 : A.ptr 1 - A.ptr 1 = 0 := Nat.sub_self _
      rw [h11]
      have h10 : (1 : Nat) - 1 = 0 := rfl
      rw [h10, List.getD_cons_zero]
  · simp only [List.length_cons, List.length_map, List.length_drop, hlen]
    omega

theorem shift_up_ptr_big {A : Csr} (h : A.wf) (hn : 1 ≤ A.rows) {i : Nat}
    (hi : A.rows < i) : (csr_shift A false).ptr i = 0 := by
  have hlen := h.1
  refine getD_of_length_le 0 ?_
  rw [shift_up_indptr]
  simp only [List.length_append, List.length_cons, List.length_map, List.length_drop, List.length_nil, hlen]
  omega

theorem shift_up_indices_eq {A : Csr} (h : A.wf) (hn : 1 ≤ A.rows) :
    (csr_shift A false).indices = A.indices.drop (A.ptr 1) := by
  have hlen := h.1
  have hnnz0 : (csr_shift A false).indptr.getD ((csr_shift A false).indptr.length - 1) 0 =
      A.ptr A.rows - A.ptr 1 := by
    have hl : (csr_shift A false).indptr.length = A.rows + 1 := by
      rw [shift_up_indptr]
      simp only [List.length_append, List.length_cons, List.length_map, List.length_drop, List.length_nil, hlen]
      omega
    have : (csr_shift A false).indptr.length - 1 = A.rows := by omega
    rw [this]
    exact shift_up_ptr_last h hn
  have start : (csr_shift A false).indices =
      (if A.indptr.getD 1 0 ≠ 0 then A.indices.drop (A.indptr.getD 1 0) else A.indices).take
        ((csr_shift A false).indptr.getD ((csr_shift A false).indptr.length - 1) 0) := rfl
  rw [start, hnnz0]
  have hdrop : (if A.indptr.getD 1 0 ≠ 0 then A.indices.drop (A.indptr.getD 1 0)
      else A.indices) = A.indices.drop (A.ptr 1) := by
    by_cases hm : A.indptr.getD 1 0 ≠ 0
    · rw [if_pos hm]
      rfl
    · rw [if_neg hm]
      push_neg at hm
      show A.indices = A.indices.drop (A.ptr 1)
      have : A.ptr 1 = 0 := hm
      rw [this, List.drop_zero]
  rw [hdrop]
  refine List.take_of_length_le ?_
  rw [List.length_drop, ← h.2.2.2.1]

theorem shift_up_data_eq {A : Csr} (h : A.wf) (hn : 1 ≤ A.rows) :
    (csr_shift A false).data = A.data.drop (A.ptr 1) := by
  have hlen := h.1
  have hnnz0 : (csr_shift A false).indptr.getD ((csr_shift A false).indptr.length - 1) 0 =
      A.ptr A.rows - A.ptr 1 := by
    have hl : (csr_shift A false).indptr.length = A.rows + 1 := by
      rw [shift_up_indptr]
      simp only [List.length_append, List.length_cons, List.length_map, List.length_drop, List.length_nil, hlen]
      omega
    have : (csr_shift A false).indptr.length - 1 = A.rows := by omega
    rw [this]
    exact shift_up_ptr_last h hn
  have start : (csr_shift A false).data =
      (if A.indptr.getD 1 0 ≠ 0 then A.data.drop (A.indptr.getD 1 0) else A.data).take
        ((csr_shift A false).indptr.getD ((csr_shift A false).indptr.length - 1) 0) := rfl
  rw [start, hnnz0]
  have hdrop : (if A.indptr.getD 1 0 ≠ 0 then A.data.drop (A.indptr.getD 1 0)
      else A.data) = A.data.drop (A.ptr 1) := by
    by_cases hm : A.indptr.getD 1 0 ≠ 0
    · rw [if_pos hm]
      rfl
    · rw [if_neg hm]
      push_neg at hm
      show A.data = A.data.drop (A.ptr 1)
      have : A.ptr 1 = 0 := hm
      rw [this, List.drop_zero]
  rw [hdrop]
  refine List.take_of_length_le ?_
  rw [List.length_drop, ← h.2.2.2.2.1, ← h.2.2.2.1]

theorem shift_up_rowIndices {A : Csr} (h : A.wf) (hn : 1 ≤ A.rows) (r : Nat) :
    (csr_shift A false).rowIndices r = if r + 1 < A.rows then A.rowIndices (r + 1) else [] := by
  by_cases h1 : r + 1 < A.rows
  · rw [if_pos h1]
    unfold Csr.rowIndices
    rw [shift_up_ptr_le h hn (show r ≤ A.rows - 1 by omega),
      shift_up_ptr_le h hn (show r + 1 ≤ A.rows - 1 by omega),
      shift_up_indices_eq h hn, List.take_drop]
    have e1 : A.ptr 1 + (A.ptr (r + 1 + 1) - A.ptr 1) = A.ptr (r + 1 + 1) := by
      have := Csr.ptr_mono h (show 1 ≤ r + 1 + 1 by omega) (show r + 1 + 1 ≤ A.rows by omega)
      omega
    rw [e1, List.drop_drop]
    have e2 : A.ptr 1 + (A.ptr (r + 1) - A.ptr 1) = A.ptr (r + 1) := by
      have := Csr.ptr_mono h (show 1 ≤ r + 1 by omega) (show r + 1 ≤ A.rows by omega)
      omega
    rw [e2]
  · rw [if_neg h1]
    by_cases h2 : r < A.rows
    · unfold Csr.rowIndices
      rw [shift_up_ptr_le h hn (show r ≤ A.rows - 1 by omega)]
      have hrr : r + 1 = A.rows := by omega
      rw [hrr, shift_up_ptr_last h hn, List.drop_eq_nil_iff, List.length_take]
      exact Nat.min_le_left _ _
    · unfold Csr.rowIndices
      have hp : (csr_shift A false).ptr (r + 1) = 0 :=
        shift_up_ptr_big h hn (show A.rows < r + 1 by omega)
      rw [hp]
      simp

theorem shift_up_rowData {A : Csr} (h : A.wf) (hn : 1 ≤ A.rows) (r : Nat) :
    (csr_shift A false).rowData r = if r + 1 < A.rows then A.rowData (r + 1) else [] := by
  by_cases h1 : r + 1 < A.rows
  · rw [if_pos h1]
    unfold Csr.rowData
    rw [shift_up_ptr_le h hn (show r ≤ A.rows - 1 by omega),
      shift_up_ptr_le h hn (show r + 1 ≤ A.rows - 1 by omega),
      shift_up_data_eq h hn, List.take_drop]
    have e1 : A.ptr 1 + (A.ptr (r + 1 + 1) - A.ptr 1) = A.ptr (r + 1 + 1) := by
      have := Csr.ptr_mono h (show 1 ≤ r + 1 + 1 by omega) (show r + 1 + 1 ≤ A.rows by omega)
      omega
    rw [e1, List.drop_drop]
    have e2 : A.ptr 1 + (A.ptr (r + 1) - A.ptr 1) = A.ptr (r + 1) := by
      have := Csr.ptr_mono h (show 1 ≤ r + 1 by omega) (show r + 1 ≤ A.rows by omega)
      omega
    rw [e2]
  · rw [if_neg h1]
    by_cases h2 : r < A.rows
    · unfold Csr.rowData
      rw [shift_up_ptr_le h hn (show r ≤ A.rows - 1 by omega)]
      have hrr : r + 1 = A.rows := by omega
      rw [hrr, shift_up_ptr_last h hn, List.drop_eq_nil_iff, List.length_take]
      exact Nat.min_le_left _ _
    · unfold Csr.rowData
      have hp : (csr_shift A false).ptr (r + 1) = 0 :=
        shift_up_ptr_big h hn (show A.rows < r + 1 by omega)
      rw [hp]
      simp

theorem shift_up_nnz {A : Csr} (h : A.wf) (hn : 1 ≤ A.rows) :
    (csr_shift A false).indices.length = A.indices.length - (A.rowIndices 0).length := by
  rw [shift_up_indices_eq h hn, List.length_drop, rowIndices_length h hn]
  have h0 := h.2.1
  simp only [Nat.zero_add]
  omega

theorem shift_up_wf {A : Csr} (h : A.wf) (hn : 1 ≤ A.rows) : (csr_shift A false).wf := by
  have hrows : (csr_shift A false).rows = A.rows := csr_shift_rows A false
  refine ⟨?_, ?_, ?_, ?_, ?_, ?_, ?_⟩
  · rw [shift_up_indptr, csr_shift_rows]
    simp only [List.length_append, List.length_cons, List.length_map, List.length_drop,
      List.length_nil, h.1]
    omega
  · rw [shift_up_ptr_le h hn (Nat.zero_le _)]
    simp only [Nat.zero_add]
    exact Nat.sub_self _
  · intro i hi
    rw [csr_shift_rows] at hi
    by_cases hc : i + 1 ≤ A.rows - 1
    · rw [shift_up_ptr_le h hn (show i ≤ A.rows - 1 by omega),
        shift_up_ptr_le h hn hc]
      exact Nat.sub_le_sub_right (Csr.ptr_mono h (by omega) (by omega)) _
    · have hie : i + 1 = A.rows := by omega
      rw [shift_up_ptr_le h hn (show i ≤ A.rows - 1 by omega), hie, shift_up_ptr_last h hn]
  · rw [csr_shift_rows, shift_up_ptr_last h hn, shift_up_indices_eq h hn, List.length_drop,
      ← h.2.2.2.1]
  · rw [shift_up_indices_eq h hn, shift_up_data_eq h hn, List.length_drop, List.length_drop,
      h.2.2.2.2.1]
  · intro c hc
    rw [csr_shift_cols]
    rw [shift_up_indices_eq h hn] at hc
    exact h.2.2.2.2.2.1 c (List.mem_of_mem_drop hc)
  · intro r hr
    have hri := shift_up_rowIndices h hn r
    rw [hri]
    by_cases h1 : r + 1 < A.rows
    · rw [if_pos h1]
      exact h.2.2.2.2.2.2 (r + 1) h1
    · rw [if_neg h1]
      intro t ht
      simp at ht

theorem shift_down_row {A : Csr} (h : A.wf) (hn : 1 ≤ A.rows) (r : Nat) :
    (csr_shift A true).row r = if 1 ≤ r ∧ r < A.rows then A.row (r - 1) else [] := by
  unfold Csr.row
  rw [shift_down_rowIndices h hn r, shift_down_rowData h hn r]
  by_cases h1 : 1 ≤ r ∧ r < A.rows
  · simp [h1]
  · simp [h1]

theorem shift_up_row {A : Csr} (h : A.wf) (hn : 1 ≤ A.rows) (r : Nat) :
    (csr_shift A false).row r = if r + 1 < A.rows then A.row (r + 1) else [] := by
  unfold Csr.row
  rw [shift_up_rowIndices h hn r, shift_up_rowData h hn r]
  by_cases h1 : r + 1 < A.rows
  · simp [h1]
  · simp [h1]

theorem row_oob {A : Csr} (h : A.wf) {r : Nat} (hr : A.rows ≤ r) : A.row r = [] := by
  unfold Csr.row Csr.rowIndices
  have hp : A.ptr (r + 1) = 0 := Csr.ptr_oob h.1 (show A.rows + 1 ≤ r + 1 by omega)
  rw [hp]
  simp

theorem csr_shift_wf {A : Csr} (h : A.wf) (hn : 1 ≤ A.rows) (down : Bool) :
    (csr_shift A down).wf := by
  cases down
  · exact shift_up_wf h hn
  · exact shift_down_wf h hn

theorem shift_iter_rows (A : Csr) (down : Bool) (d : Nat) :
    (shift_iter A down d).rows = A.rows := by
  induction d with
  | zero => rfl
  | succ d ih => rw [shift_iter, csr_shift_rows, ih]

theorem shift_iter_cols (A : Csr) (down : Bool) (d : Nat) :
    (shift_iter A down d).cols = A.cols := by
  induction d with
  | zero => rfl
  | succ d ih => rw [shift_iter, csr_shift_cols, ih]

theorem shift_iter_wf {A : Csr} (h : A.wf) (hn : 1 ≤ A.rows) (down : Bool) (d : Nat) :
    (shift_iter A down d).wf := by
  induction d with
  | zero => exact h
  | succ d ih =>
      rw [shift_iter]
      exact csr_shift_wf ih (by rw [shift_iter_rows]; exact hn) down

theorem shift_iter_row_down {A : Csr} (h : A.wf) (hn : 1 ≤ A.rows) (d : Nat) :
    ∀ r, (shift_iter A true d).row r = if d ≤ r ∧ r < A.rows then A.row (r - d) else [] := by
  induction d with
  | zero =>
      intro r
      by_cases hr : r < A.rows
      · rw [if_pos ⟨Nat.zero_le _, hr⟩, Nat.sub_zero]
        rfl
      · rw [if_neg (by omega)]
        exact row_oob h (by omega)
  | succ d ih =>
      intro r
      rw [shift_iter, shift_down_row (shift_iter_wf h hn true d)
        (by rw [shift_iter_rows]; exact hn) r, shift_iter_rows]
      by_cases h1 : 1 ≤ r ∧ r < A.rows
      · rw [if_pos h1, ih (r - 1)]
        by_cases h2 : d + 1 ≤ r ∧ r < A.rows
        · rw [if_pos (show d ≤ r - 1 ∧ r - 1 < A.rows by omega), if_pos h2]
          have e : r - 1 - d = r - (d + 1) := by omega
          rw [e]
        · rw [if_neg (show ¬(d ≤ r - 1 ∧ r - 1 < A.rows) by omega), if_neg h2]
      · have h1x : r = 0 ∨ A.rows ≤ r := by
          by_cases hx : r < A.rows
          · left
            by_contra hy
            exact h1 ⟨by omega, hx⟩
          · right
            omega
        rw [if_neg h1, if_neg (show ¬(d + 1 ≤ r ∧ r < A.rows) by omega)]

theorem shift_iter_row_up {A : Csr} (h : A.wf) (hn : 1 ≤ A.rows) (d : Nat) :
    ∀ r, (shift_iter A false d).row r = if r + d < A.rows then A.row (r + d) else [] := by
  induction d with
  | zero =>
      intro r
      by_cases hr : r < A.rows
      · rw [if_pos (by omega)]
        rfl
      · rw [if_neg (by omega)]
        exact row_oob h (by omega)
  | succ d ih =>
      intro r
      rw [shift_iter, shift_up_row (shift_iter_wf h hn false d)
        (by rw [shift_iter_rows]; exact hn) r, shift_iter_rows]
      by_cases h1 : r + 1 < A.rows
      · rw [if_pos h1, ih (r + 1)]
        by_cases h2 : r + (d + 1) < A.rows
        · rw [if_pos (show r + 1 + d < A.rows by omega), if_pos h2]
          have e : r + 1 + d = r + (d + 1) := by omega
          rw [e]
        · rw [if_neg (show ¬(r + 1 + d < A.rows) by omega), if_neg h2]
      · rw [if_neg h1, if_neg (show ¬(r + (d + 1) < A.rows) by omega)]

theorem entry_eq_of_row_eq {A B : Csr} {r s : Nat} (h : A.row r = B.row s) (c : Nat) :
    A.entry r c = B.entry s c := by
  unfold Csr.entry
  rw [h]

theorem entry_of_row_nil {A : Csr} {r : Nat} (h : A.row r = []) (c : Nat) :
    A.entry r c = 0 := by
  unfold Csr.entry
  rw [h]
  rfl

theorem shift_iter_entry_down {A : Csr} (h : A.wf) (hn : 1 ≤ A.rows) (d r c : Nat) :
    (shift_iter A true d).entry r c =
      if d ≤ r ∧ r < A.rows then A.entry (r - d) c else 0 := by
  have hr := shift_iter_row_down h hn d r
  by_cases h1 : d ≤ r ∧ r < A.rows
  · rw [if_pos h1] at hr
    rw [if_pos h1]
    exact entry_eq_of_row_eq hr c
  · rw [if_neg h1] at hr
    rw [if_neg h1]
    exact entry_of_row_nil hr c

theorem shift_iter_entry_up {A : Csr} (h : A.wf) (hn : 1 ≤ A.rows) (d r c : Nat) :
    (shift_iter A false d).entry r c =
      if r + d < A.rows then A.entry (r + d) c else 0 := by
  have hr := shift_iter_row_up h hn d r
  by_cases h1 : r + d < A.rows
  · rw [if_pos h1] at hr
    rw [if_pos h1]
    exact entry_eq_of_row_eq hr c
  · rw [if_neg h1] at hr
    rw [if_neg h1]
    exact entry_of_row_nil hr c

/-! Unfolding the accumulator loop. -/

theorem cum_sum_state_succ (A : Csr) (comp : List Nat) (ab : Bool) (w : Nat) :
    cum_sum_state A comp ab (w + 1) =
      cum_sum_step comp ab (cum_sum_state A comp ab w) (w + 1) := by
  unfold cum_sum_state
  rw [List.range_succ, List.map_append, List.foldl_append]
  rfl

theorem cum_sum_state_fst (A : Csr) (comp : List Nat) (ab : Bool) (w : Nat) :
    (cum_sum_state A comp ab w).1 = shift_iter A ab w := by
  induction w with
  | zero => rfl
  | succ w ih =>
      rw [cum_sum_state_succ]
      show csr_shift (cum_sum_state A comp ab w).1 ab = _
      rw [ih]
      rfl

theorem csr_cum_sum_zero (A : Csr) (comp : List Nat) (ab : Bool) (i c : Nat) :
    csr_cum_sum A comp 0 ab i c = 0 := rfl

theorem csr_cum_sum_succ (A : Csr) (comp : List Nat) (ab : Bool) (w i c : Nat) :
    csr_cum_sum A comp (w + 1) ab i c =
      csr_cum_sum A comp w ab i c +
        (is_same_after_shift comp (((w + 1 : Nat) : Int) * (if ab then 1 else -1))).getD i 0 *
          (shift_iter A ab (w + 1)).entry i c := by
  unfold csr_cum_sum
  rw [cum_sum_state_succ]
  show (cum_sum_state A comp ab w).2 i c +
      (is_same_after_shift comp _).getD i 0 *
        (csr_shift (cum_sum_state A comp ab w).1 ab).entry i c = _
  rw [cum_sum_state_fst]
  rfl

/-! Values of the group mask. -/

theorem is_same_getD {v : List Nat} {i : Nat} (hi : i < v.length) (s : Int) :
    (is_same_after_shift v s).getD i 0 =
      if v.getD i 0 = v.getD ((((i : Int) - s) % (v.length : Int)).toNat) 0 then 1 else 0 := by
  unfold is_same_after_shift np_roll
  rw [getD_map_range _ 0 hi, getD_map_range _ 0 hi]

theorem is_same_length (v : List Nat) (s : Int) :
    (is_same_after_shift v s).length = v.length := by
  unfold is_same_after_shift
  rw [List.length_map, List.length_range]

theorem mask_getD_above {v : List Nat} {i d : Nat} (hi : i < v.length) (hd : d ≤ i) :
    (is_same_after_shift v (d : Int)).getD i 0 =
      if v.getD i 0 = v.getD (i - d) 0 then 1 else 0 := by
  rw [is_same_getD hi]
  have h1 : ((i : Int) - (d : Int)) = ((i - d : Nat) : Int) := by omega
  have h2 : (((i - d : Nat) : Int) % (v.length : Int)) = ((i - d : Nat) : Int) :=
    Int.emod_eq_of_lt (Int.natCast_nonneg _)
      (by exact_mod_cast Nat.lt_of_le_of_lt (Nat.sub_le i d) hi)
  rw [h1, h2, Int.toNat_natCast]

theorem mask_getD_below {v : List Nat} {i d : Nat} (hd : i + d < v.length) :
    (is_same_after_shift v (-(d : Int))).getD i 0 =
      if v.getD i 0 = v.getD (i + d) 0 then 1 else 0 := by
  have hi : i < v.length := by omega
  rw [is_same_getD hi]
  have h1 : ((i : Int) - (-(d : Int))) = ((i + d : Nat) : Int) := by omega
  have h2 : (((i + d : Nat) : Int) % (v.length : Int)) = ((i + d : Nat) : Int) :=
    Int.emod_eq_of_lt (Int.natCast_nonneg _) (by exact_mod_cast hd)
  rw [h1, h2, Int.toNat_natCast]

theorem mask_getD_nonneg (v : List Nat) (s : Int) (i : Nat) :
    0 ≤ (is_same_after_shift v s).getD i 0 := by
  by_cases hi : i < v.length
  · rw [is_same_getD hi]
    split
    · exact zero_le_one
    · exact Int.le_refl 0
  · rw [getD_of_length_le 0 (by rw [is_same_length]; omega)]

/-! Non-negativity of stored values is preserved by shifting. -/

theorem csr_shift_data_nonneg {A : Csr} (h : ∀ x ∈ A.data, 0 ≤ x) (down : Bool) :
    ∀ x ∈ (csr_shift A down).data, 0 ≤ x := by
  cases down
  · intro x hx
    refine h x ?_
    rw [show (csr_shift A false).data =
        (if A.indptr.getD 1 0 ≠ 0 then A.data.drop (A.indptr.getD 1 0) else A.data).take
          ((csr_shift A false).indptr.getD ((csr_shift A false).indptr.length - 1) 0)
      from rfl] at hx
    have hx2 := List.mem_of_mem_take hx
    by_cases hm : A.indptr.getD 1 0 ≠ 0
    · rw [if_pos hm] at hx2
      exact List.mem_of_mem_drop hx2
    · rw [if_neg hm] at hx2
      exact hx2
  · intro x hx
    refine h x ?_
    rw [show (csr_shift A true).data =
        (if A.indptr.getD (A.indptr.length - 1) 0 ≠ A.indptr.getD (A.indptr.length - 2) 0
         then A.data.dropLast else A.data).take
          ((0 :: A.indptr.dropLast).getD ((0 :: A.indptr.dropLast).length - 1) 0)
      from rfl] at hx
    have hx2 := List.mem_of_mem_take hx
    by_cases hm : A.indptr.getD (A.indptr.length - 1) 0 ≠ A.indptr.getD (A.indptr.length - 2) 0
    · rw [if_pos hm] at hx2
      exact List.mem_of_mem_dropLast hx2
    · rw [if_neg hm] at hx2
      exact hx2

theorem shift_iter_data_nonneg {A : Csr} (h : ∀ x ∈ A.data, 0 ≤ x) (down : Bool) (d : Nat) :
    ∀ x ∈ (shift_iter A down d).data, 0 ≤ x := by
  induction d with
  | zero => exact h
  | succ d ih => exact csr_shift_data_nonneg ih down

theorem entry_nonneg {A : Csr} (h : ∀ x ∈ A.data, 0 ≤ x) (r c : Nat) : 0 ≤ A.entry r c := by
  unfold Csr.entry
  refine List.sum_nonneg ?_
  intro x hx
  obtain ⟨p, hp, rfl⟩ := List.mem_map.1 hx
  have hpz : p ∈ (A.rowIndices r).zip (A.rowData r) := List.mem_of_mem_filter hp
  obtain ⟨p1, p2⟩ := p
  have h2 : p2 ∈ A.rowData r := (List.of_mem_zip hpz).2
  refine h p2 ?_
  unfold Csr.rowData at h2
  exact List.mem_of_mem_take (List.mem_of_mem_drop h2)

/-! Characterization of the one-hot indicator structure. -/

theorem one_hot_indices_cons (w : Nat) (ws vocab : List Nat) :
    one_hot_indices (w :: ws) vocab =
      (if w ∈ vocab then [vocab.indexOf w] else []) ++ one_hot_indices ws vocab := by
  unfold one_hot_indices
  rw [List.filterMap_cons]
  by_cases hw : w ∈ vocab
  · rw [if_pos hw, if_pos hw]
    rfl
  · rw [if_neg hw, if_neg hw]
    rfl

theorem scanl_getD_aux (vocab : List Nat) :
    ∀ (l : List Nat) (a j : Nat), j ≤ l.length →
      (List.scanl (fun s w => s + if w ∈ vocab then 1 else 0) a l).getD j 0 =
        a + (one_hot_indices (l.take j) vocab).length := by
  intro l
  induction l with
  | nil =>
      intro a j hj
      have : j = 0 := by simpa using hj
      subst this
      simp [one_hot_indices]
  | cons w ws ih =>
      intro a j hj
      cases j with
      | zero => simp [one_hot_indices]
      | succ j =>
          show ((a :: List.scanl _ (a + if w ∈ vocab then 1 else 0) ws).getD (j + 1) 0) = _
          rw [List.getD_cons_succ, ih _ j (by simpa using hj)]
          rw [List.take_succ_cons, one_hot_indices_cons]
          by_cases hw : w ∈ vocab
          · simp [hw]
            omega
          · simp [hw]

theorem one_hot_ptr (words vocab : List Nat) {j : Nat} (hj : j ≤ words.length) :
    (one_hot_csr words vocab).ptr j = (one_hot_indices (words.take j) vocab).length := by
  show (List.scanl _ 0 words).getD j 0 = _
  rw [scanl_getD_aux vocab words 0 j hj]
  omega

theorem one_hot_indices_take_succ (words vocab : List Nat) {j : Nat} (hj : j < words.length) :
    one_hot_indices (words.take (j + 1)) vocab =
      one_hot_indices (words.take j) vocab ++
        (if words.getD j 0 ∈ vocab then [vocab.indexOf (words.getD j 0)] else []) := by
  rw [List.take_succ, List.getElem?_eq_getElem hj]
  show one_hot_indices (words.take j ++ [words[j]]) vocab = _
  unfold one_hot_indices
  rw [List.filterMap_append]
  congr 1
  rw [List.getD_eq_getElem words 0 hj]
  by_cases hw : words[j] ∈ vocab
  · rw [if_pos hw]
    show List.filterMap _ [words[j]] = _
    simp [hw]
  · rw [if_neg hw]
    show List.filterMap _ [words[j]] = _
    simp [hw]

theorem one_hot_wf (words vocab : List Nat) : (one_hot_csr words vocab).wf := by
  have hptr : ∀ j, j ≤ words.length →
      (one_hot_csr words vocab).ptr j = (one_hot_indices (words.take j) vocab).length :=
    fun j hj => one_hot_ptr words vocab hj
  have hrows : (one_hot_csr words vocab).rows = words.length := rfl
  refine ⟨?_, ?_, ?_, ?_, ?_, ?_, ?_⟩
  · show (List.scanl _ 0 words).length = words.length + 1
    exact List.length_scanl 0 words
  · rw [hptr 0 (Nat.zero_le _)]
    simp [one_hot_indices]
  · intro i hi
    rw [hrows] at hi
    rw [hptr i (by omega), hptr (i + 1) (by omega),
      one_hot_indices_take_succ words vocab hi, List.length_append]
    omega
  · rw [hrows, hptr words.length (Nat.le_refl _), List.take_length]
    rfl
  · show (one_hot_indices words vocab).length = (List.replicate (one_hot_indices words vocab).length (1 : Int)).length
    rw [List.length_replicate]
  · intro c hc
    obtain ⟨w, hw, hfw⟩ := List.mem_filterMap.1 hc
    by_cases hwv : w ∈ vocab
    · rw [if_pos hwv] at hfw
      have : vocab.indexOf w = c := by simpa using hfw
      show c < vocab.length
      rw [← this]
      exact List.indexOf_lt_length.2 hwv
    · rw [if_neg hwv] at hfw
      simp at hfw
  · intro r hr
    rw [hrows] at hr
    intro t ht
    exfalso
    have hlen1 : ((one_hot_csr words vocab).rowIndices r).length ≤ 1 := by
      unfold Csr.rowIndices
      rw [List.length_drop, List.length_take]
      rw [hptr r (by omega), hptr (r + 1) (by omega),
        one_hot_indices_take_succ words vocab hr, List.length_append]
      by_cases hw : words.getD r 0 ∈ vocab
      · rw [if_pos hw]
        simp
        omega
      · rw [if_neg hw]
        simp
    omega

theorem one_hot_rows (words vocab : List Nat) : (one_hot_csr words vocab).rows = words.length := rfl

theorem one_hot_cols (words vocab : List Nat) : (one_hot_csr words vocab).cols = vocab.length := rfl

theorem one_hot_data_nonneg (words vocab : List Nat) :
    ∀ x ∈ (one_hot_csr words vocab).data, 0 ≤ x := by
  intro x hx
  have hx1 : x = 1 := List.eq_of_mem_replicate hx
  rw [hx1]
  exact zero_le_one

theorem one_hot_row (words vocab : List Nat) {j : Nat} (hj : j < words.length) :
    (one_hot_csr words vocab).row j =
      if words.getD j 0 ∈ vocab then [(vocab.indexOf (words.getD j 0), (1 : Int))] else [] := by
  have hsplit : one_hot_indices words vocab =
      one_hot_indices (words.take (j + 1)) vocab ++ one_hot_indices (words.drop (j + 1)) vocab := by
    conv_lhs => rw [← List.take_append_drop (j + 1) words]
    unfold one_hot_indices
    exact List.filterMap_append _ _ _
  have hp1 : (one_hot_csr words vocab).ptr (j + 1) =
      (one_hot_indices (words.take (j + 1)) vocab).length := one_hot_ptr words vocab (by omega)
  have hp0 : (one_hot_csr words vocab).ptr j =
      (one_hot_indices (words.take j) vocab).length := one_hot_ptr words vocab (by omega)
  have hL : (one_hot_indices (words.take (j + 1)) vocab).length ≤
      (one_hot_indices words vocab).length := by
    rw [hsplit, List.length_append]
    omega
  have hri : (one_hot_csr words vocab).rowIndices j =
      (if words.getD j 0 ∈ vocab then [vocab.indexOf (words.getD j 0)] else []) := by
    show ((one_hot_indices words vocab).take ((one_hot_csr words vocab).ptr (j + 1))).drop
        ((one_hot_csr words vocab).ptr j) = _
    rw [hp1, hp0, hsplit, List.take_left, one_hot_indices_take_succ words vocab hj,
      List.drop_left]
  have hrd : (one_hot_csr words vocab).rowData j =
      (if words.getD j 0 ∈ vocab then [(1 : Int)] else []) := by
    show ((List.replicate (one_hot_indices words vocab).length (1 : Int)).take
        ((one_hot_csr words vocab).ptr (j + 1))).drop ((one_hot_csr words vocab).ptr j) = _
    rw [List.take_replicate, List.drop_replicate, hp1, hp0,
      Nat.min_eq_left hL, one_hot_indices_take_succ words vocab hj, List.length_append]
    by_cases hw : words.getD j 0 ∈ vocab
    · rw [if_pos hw, if_pos hw]
      simp
    · rw [if_neg hw, if_neg hw]
      simp
  unfold Csr.row
  rw [hri, hrd]
  by_cases hw : words.getD j 0 ∈ vocab
  · rw [if_pos hw, if_pos hw, if_pos hw]
    rfl
  · rw [if_neg hw, if_neg hw, if_neg hw]
    rfl

theorem one_hot_entry (words vocab : List Nat) (hnd : vocab.Nodup) {j c : Nat}
    (hj : j < words.length) (hc : c < vocab.length) :
    (one_hot_csr words vocab).entry j c =
      if words.getD j 0 = vocab.getD c 0 then 1 else 0 := by
  unfold Csr.entry
  rw [one_hot_row words vocab hj]
  by_cases hw : words.getD j 0 ∈ vocab
  · rw [if_pos hw]
    by_cases he : vocab.indexOf (words.getD j 0) = c
    · have hlt : vocab.indexOf (words.getD j 0) < vocab.length := List.indexOf_lt_length.2 hw
      have heq : words.getD j 0 = vocab.getD c 0 := by
        rw [← he, List.getD_eq_getElem vocab 0 hlt]
        exact (List.getElem_indexOf hlt).symm
      rw [if_pos heq, he]
      simp [List.filter_cons]
    · have hne : words.getD j 0 ≠ vocab.getD c 0 := by
        intro heq
        apply he
        rw [heq, List.getD_eq_getElem vocab 0 hc]
        exact List.indexOf_getElem hnd c hc
      rw [if_neg hne]
      have he2 : ¬List.indexOf (words[j]?.getD 0) vocab = c := by
        rw [← List.getD_eq_getElem?_getD]
        exact he
      simp [List.filter_cons, he2]
  · rw [if_neg hw]
    have hne : words.getD j 0 ≠ vocab.getD c 0 := by
      intro heq
      apply hw
      rw [heq, List.getD_eq_getElem vocab 0 hc]
      exact List.getElem_mem hc
    rw [if_neg hne]
    rfl

theorem rowData_length {A : Csr} (h : A.wf) {r : Nat} (hr : r < A.rows) :
    (A.rowData r).length = A.ptr (r + 1) - A.ptr r := by
  unfold Csr.rowData
  rw [List.length_drop, List.length_take]
  have h1 : A.ptr (r + 1) ≤ A.data.length := by
    rw [← h.2.2.2.2.1, ← h.2.2.2.1]
    exact Csr.ptr_mono h hr (Nat.le_refl _)
  omega

theorem row_length {A : Csr} (h : A.wf) {r : Nat} (hr : r < A.rows) :
    (A.row r).length = A.ptr (r + 1) - A.ptr r := by
  unfold Csr.row
  rw [List.length_zip, rowIndices_length h hr, rowData_length h hr, Nat.min_self]

/-- C3: on a well-formed CSR matrix with at least one row, one csr_shift
preserves the shape, its result's total non-zero count equals the input's
total minus the entry count of the vacated boundary row (the last row for
a downward shift, the first row for an upward shift), the result passes
the CSR well-formedness check, and every result row is either the exact
input row from one position away or the emptied boundary row, so no value
wraps from one end of the sequence to the other. -/
theorem csr_shift_conservation_and_wf (A : Csr) (down : Bool) (h : A.wf) (hn : 1 ≤ A.rows) :
    (csr_shift A down).rows = A.rows ∧
    (csr_shift A down).cols = A.cols ∧
    (csr_shift A down).indices.length =
      A.indices.length - (A.row (if down then A.rows - 1 else 0)).length ∧
    (csr_shift A down).wf ∧
    (∀ r, (csr_shift A down).row r =
      if down then (if 1 ≤ r ∧ r < A.rows then A.row (r - 1) else [])
      else (if r + 1 < A.rows then A.row (r + 1) else [])) := by
  cases down
  · refine ⟨csr_shift_rows A false, csr_shift_cols A false, ?_, shift_up_wf h hn, ?_⟩
    · rw [shift_up_nnz h hn]
      have e1 : (A.row 0).length = (A.rowIndices 0).length := by
        rw [row_length h (by omega), rowIndices_length h (by omega)]
      rw [if_neg (by intro hx; cases hx)] at *
      rw [e1]
    · intro r
      rw [shift_up_row h hn r]
      rfl
  · refine ⟨csr_shift_rows A true, csr_shift_cols A true, ?_, shift_down_wf h hn, ?_⟩
    · rw [shift_down_nnz h hn]
      have e1 : (A.row (A.rows - 1)).length = (A.rowIndices (A.rows - 1)).length := by
        rw [row_length h (by omega), rowIndices_length h (by omega)]
      rw [if_pos rfl, e1]
    · intro r
      rw [shift_down_row h hn r]
      rfl

/-- Sample well-formed CSR matrix used as a concrete witness input. -/
def sampleA : Csr :=
  { rows := 3, cols := 2, indptr := [0, 1, 1, 3], indices := [1, 0, 1], data := [4, 5, 6] }

/-- Second sample well-formed CSR matrix used as a concrete witness input. -/
def sampleB : Csr :=
  { rows := 2, cols := 2, indptr := [0, 1, 2], indices := [0, 1], data := [4, 5] }

theorem csr_shift_conservation_and_wf_witness :
    sampleA.wf ∧ 1 ≤ sampleA.rows ∧
    ((csr_shift sampleA true).rows = sampleA.rows ∧
      (csr_shift sampleA true).cols = sampleA.cols ∧
      (csr_shift sampleA true).indices.length =
        sampleA.indices.length -
          (sampleA.row (if true then sampleA.rows - 1 else 0)).length ∧
      (csr_shift sampleA true).wf ∧
      (∀ r, (csr_shift sampleA true).row r =
        if true then (if 1 ≤ r ∧ r < sampleA.rows then sampleA.row (r - 1) else [])
        else (if r + 1 < sampleA.rows then sampleA.row (r + 1) else []))) :=
  ⟨by decide, by decide, csr_shift_conservation_and_wf sampleA true (by decide) (by decide)⟩

/-- C5: shifting a well-formed CSR matrix one way and then the opposite
way restores every row except the boundary row vacated by the first
shift, which is empty in the result. -/
theorem csr_shift_round_trip (A : Csr) (down : Bool) (h : A.wf) (hn : 1 ≤ A.rows) :
    (∀ r, r < A.rows → r ≠ (if down then A.rows - 1 else 0) →
      (csr_shift (csr_shift A down) (!down)).row r = A.row r) ∧
    (csr_shift (csr_shift A down) (!down)).row (if down then A.rows - 1 else 0) = [] := by
  cases down
  · have hB : (csr_shift A false).wf := shift_up_wf h hn
    have hBrows : (csr_shift A false).rows = A.rows := csr_shift_rows A false
    constructor
    · intro r hr hne
      have hne0 : r ≠ 0 := by simpa using hne
      have hr1 : 1 ≤ r := Nat.one_le_iff_ne_zero.mpr hne0
      show (csr_shift (csr_shift A false) true).row r = A.row r
      rw [shift_down_row hB (by rw [hBrows]; exact hn) r, hBrows, if_pos ⟨hr1, hr⟩,
        shift_up_row h hn (r - 1), if_pos (by omega)]
      congr 1
      omega
    · show (csr_shift (csr_shift A false) true).row 0 = []
      rw [shift_down_row hB (by rw [hBrows]; exact hn) 0, if_neg (by omega)]
  · have hB : (csr_shift A true).wf := shift_down_wf h hn
    have hBrows : (csr_shift A true).rows = A.rows := csr_shift_rows A true
    constructor
    · intro r hr hne
      have hne1 : r ≠ A.rows - 1 := by simpa using hne
      show (csr_shift (csr_shift A true) false).row r = A.row r
      rw [shift_up_row hB (by rw [hBrows]; exact hn) r, hBrows, if_pos (by omega),
        shift_down_row h hn (r + 1), if_pos (by omega)]
      rfl
    · show (csr_shift (csr_shift A true) false).row (A.rows - 1) = []
      rw [shift_up_row hB (by rw [hBrows]; exact hn) (A.rows - 1), hBrows, if_neg (by omega)]

theorem csr_shift_round_trip_witness :
    sampleB.wf ∧ 1 ≤ sampleB.rows ∧
    ((∀ r, r < sampleB.rows → r ≠ (if true then sampleB.rows - 1 else 0) →
      (csr_shift (csr_shift sampleB true) (!true)).row r = sampleB.row r) ∧
      (csr_shift (csr_shift sampleB true) (!true)).row
        (if true then sampleB.rows - 1 else 0) = []) :=
  ⟨by decide, by decide, csr_shift_round_trip sampleB true (by decide) (by decide)⟩

/-- C6: the Category Encoder fails with the InvalidVocabulary condition
whenever the vocabulary contains duplicate labels, for every token
stream. -/
theorem one_hot_encode_duplicate_vocabulary_fails (words vocab : List Nat)
    (hdup : ¬ vocab.Nodup) :
    one_hot_encode words vocab = Except.error ExtractError.InvalidVocabulary := by
  unfold one_hot_encode
  rw [if_neg hdup]

theorem one_hot_encode_duplicate_vocabulary_fails_witness :
    ¬ ([0, 0] : List Nat).Nodup ∧
      one_hot_encode [1, 2] [0, 0] = Except.error ExtractError.InvalidVocabulary :=
  ⟨by decide, one_hot_encode_duplicate_vocabulary_fails [1, 2] [0, 0] (by decide)⟩

/-- C9: on the single-group label sequence [a, b, c, a] (coded 0, 1, 2, 0)
with window 1 and vocabulary (a, b, c), the earlier-direction accumulated
counts in category a at positions 0..3 are exactly 0, 1, 0, 0. -/
theorem boundary_scenario_abca :
    extract_features (one_hot_csr [0, 1, 2, 0] [0, 1, 2]) [7, 7, 7, 7] 1 0 0 = 0 ∧
    extract_features (one_hot_csr [0, 1, 2, 0] [0, 1, 2]) [7, 7, 7, 7] 1 1 0 = 1 ∧
    extract_features (one_hot_csr [0, 1, 2, 0] [0, 1, 2]) [7, 7, 7, 7] 1 2 0 = 0 ∧
    extract_features (one_hot_csr [0, 1, 2, 0] [0, 1, 2]) [7, 7, 7, 7] 1 3 0 = 0 := by
  decide

/-- C4 counterexample: on the constant group vector [7, 7] at distance 1
in the earlier direction, position 0 is a wrapped-around boundary
position, yet is_same_after_shift reports 1 there (the rotated comparison
against the vector's last element), not the forced false the claim
states. -/
theorem is_same_after_shift_boundary_not_false :
    (is_same_after_shift [7, 7] 1).getD 0 0 ≠ 0 := by decide

/-- C4 amended: the entry of is_same_after_shift at position i is the
rotated comparison everywhere: away from the wrapped boundary it is 1
exactly when token i and the token at distance d in the given direction
share a group identifier, while at the wrapped-around boundary positions
it holds the comparison against the modularly wrapped element instead of
a forced false. -/
theorem is_same_after_shift_values (v : List Nat) (d i : Nat) (hd : 1 ≤ d)
    (hi : i < v.length) :
    ((d ≤ i → (is_same_after_shift v (d : Int)).getD i 0 =
        if v.getD i 0 = v.getD (i - d) 0 then 1 else 0) ∧
      (i < d → (is_same_after_shift v (d : Int)).getD i 0 =
        if v.getD i 0 = v.getD ((((i : Int) - (d : Int)) % (v.length : Int)).toNat) 0
        then 1 else 0)) ∧
    ((i + d < v.length → (is_same_after_shift v (-(d : Int))).getD i 0 =
        if v.getD i 0 = v.getD (i + d) 0 then 1 else 0) ∧
      (v.length ≤ i + d → (is_same_after_shift v (-(d : Int))).getD i 0 =
        if v.getD i 0 = v.getD ((((i : Int) + (d : Int)) % (v.length : Int)).toNat) 0
        then 1 else 0)) := by
  refine ⟨⟨fun hdi => mask_getD_above hi hdi, fun _ => ?_⟩,
    ⟨fun hid => mask_getD_below hid, fun _ => ?_⟩⟩
  · rw [is_same_getD hi]
  · rw [is_same_getD hi, Int.sub_neg]

theorem is_same_after_shift_values_witness :
    (1 ≤ 1 ∧ 0 < ([5, 5, 6] : List Nat).length) ∧
    (((1 ≤ 0 → (is_same_after_shift [5, 5, 6] ((1 : Nat) : Int)).getD 0 0 =
        if ([5, 5, 6] : List Nat).getD 0 0 = ([5, 5, 6] : List Nat).getD (0 - 1) 0
        then 1 else 0) ∧
      (0 < 1 → (is_same_after_shift [5, 5, 6] ((1 : Nat) : Int)).getD 0 0 =
        if ([5, 5, 6] : List Nat).getD 0 0 =
          ([5, 5, 6] : List Nat).getD ((((0 : Nat) : Int) - ((1 : Nat) : Int)) %
            ((([5, 5, 6] : List Nat).length : Nat) : Int)).toNat 0
        then 1 else 0)) ∧
    ((0 + 1 < ([5, 5, 6] : List Nat).length →
        (is_same_after_shift [5, 5, 6] (-((1 : Nat) : Int))).getD 0 0 =
        if ([5, 5, 6] : List Nat).getD 0 0 = ([5, 5, 6] : List Nat).getD (0 + 1) 0
        then 1 else 0) ∧
      (([5, 5, 6] : List Nat).length ≤ 0 + 1 →
        (is_same_after_shift [5, 5, 6] (-((1 : Nat) : Int))).getD 0 0 =
        if ([5, 5, 6] : List Nat).getD 0 0 =
          ([5, 5, 6] : List Nat).getD ((((0 : Nat) : Int) + ((1 : Nat) : Int)) %
            ((([5, 5, 6] : List Nat).length : Nat) : Int)).toNat 0
        then 1 else 0))) :=
  ⟨⟨by decide, by decide⟩, is_same_after_shift_values [5, 5, 6] 1 0 (by decide) (by decide)⟩

theorem dir_one : (if (true : Bool) then (1 : Int) else -1) = 1 := rfl

theorem dir_negone : (if (false : Bool) then (1 : Int) else -1) = -1 := rfl

theorem cum_sum_zero_at_group_start (words vocab company : List Nat)
    (hlen : company.length = words.length) (hcr : ContiguousRuns company)
    {i : Nat} (hi : i < words.length) (hstart : IsGroupStart company i) (c : Nat) :
    ∀ w, csr_cum_sum (one_hot_csr words vocab) company w true i c = 0 := by
  intro w
  induction w with
  | zero => rfl
  | succ w ih =>
      rw [csr_cum_sum_succ, ih, zero_add]
      have hwf := one_hot_wf words vocab
      have hn1 : 1 ≤ (one_hot_csr words vocab).rows := by rw [one_hot_rows]; omega
      rw [shift_iter_entry_down hwf hn1 (w + 1) i c]
      by_cases hd : w + 1 ≤ i
      · rw [dir_one, mul_one, mask_getD_above (show i < company.length by omega) hd]
        have hne : company.getD i 0 ≠ company.getD (i - (w + 1)) 0 := by
          intro heq
          obtain ⟨hilen, hcase⟩ := hstart
          have hi0 : i ≠ 0 := by omega
          have hprev : company.getD (i - 1) 0 ≠ company.getD i 0 := by
            rcases hcase with h0 | hne2
            · exact absurd h0 hi0
            · exact hne2
          have hmid := hcr i (by omega) (i - 1) (by omega) (i - (w + 1)) (by omega) heq.symm
          apply hprev
          rw [hmid, ← heq]
        rw [if_neg hne, zero_mul]
      · rw [dir_one, mul_one,
          if_neg (show ¬(w + 1 ≤ i ∧ i < (one_hot_csr words vocab).rows) from
            fun hcon => hd hcon.1),
          mul_zero]

theorem cum_sum_zero_at_group_end (words vocab company : List Nat)
    (hlen : company.length = words.length) (hcr : ContiguousRuns company)
    {i : Nat} (hi : i < words.length) (hend : IsGroupEnd company i) (c : Nat) :
    ∀ w, csr_cum_sum (one_hot_csr words vocab) company w false i c = 0 := by
  intro w
  induction w with
  | zero => rfl
  | succ w ih =>
      rw [csr_cum_sum_succ, ih, zero_add]
      have hwf := one_hot_wf words vocab
      have hn1 : 1 ≤ (one_hot_csr words vocab).rows := by rw [one_hot_rows]; omega
      rw [shift_iter_entry_up hwf hn1 (w + 1) i c, one_hot_rows]
      by_cases hd : i + (w + 1) < words.length
      · rw [dir_negone, mul_neg_one,
          mask_getD_below (show i + (w + 1) < company.length by omega)]
        have hne : company.getD i 0 ≠ company.getD (i + (w + 1)) 0 := by
          intro heq
          obtain ⟨hilen, hcase⟩ := hend
          have hnext : company.getD (i + 1) 0 ≠ company.getD i 0 := by
            rcases hcase with h0 | hne2
            · omega
            · exact hne2
          have hmid := hcr (i + (w + 1)) (by omega) (i + 1) (by omega) i (by omega) heq
          exact hnext hmid
        rw [if_neg hne, zero_mul]
      · rw [if_neg hd, mul_zero]

/-- C2: in a group vector of contiguous runs with at least two distinct
groups, the accumulated earlier-direction count at every group's first
position is 0 for all categories and all window sizes, regardless of what
precedes the position in the raw sequence, and symmetrically the
later-direction count at every group's last position is 0. -/
theorem no_cross_group_leakage (words vocab company : List Nat) (w i c : Nat)
    (hlen : company.length = words.length) (hcr : ContiguousRuns company)
    (htwo : HasTwoGroups company) (hw : 1 ≤ w) (hi : i < words.length) :
    (IsGroupStart company i →
      csr_cum_sum (one_hot_csr words vocab) company w true i c = 0) ∧
    (IsGroupEnd company i →
      csr_cum_sum (one_hot_csr words vocab) company w false i c = 0) :=
  ⟨fun hstart => cum_sum_zero_at_group_start words vocab company hlen hcr hi hstart c w,
   fun hend => cum_sum_zero_at_group_end words vocab company hlen hcr hi hend c w⟩

theorem no_cross_group_leakage_witness :
    (([1, 1, 1, 2, 2, 2] : List Nat).length = ([3, 3, 3, 3, 3, 3] : List Nat).length ∧
      ContiguousRuns [1, 1, 1, 2, 2, 2] ∧ HasTwoGroups [1, 1, 1, 2, 2, 2] ∧
      1 ≤ 5 ∧ 3 < ([3, 3, 3, 3, 3, 3] : List Nat).length) ∧
    ((IsGroupStart [1, 1, 1, 2, 2, 2] 3 →
      csr_cum_sum (one_hot_csr [3, 3, 3, 3, 3, 3] [3]) [1, 1, 1, 2, 2, 2] 5 true 3 0 = 0) ∧
    (IsGroupEnd [1, 1, 1, 2, 2, 2] 3 →
      csr_cum_sum (one_hot_csr [3, 3, 3, 3, 3, 3] [3]) [1, 1, 1, 2, 2, 2] 5 false 3 0 = 0)) :=
  ⟨⟨by decide, by decide, by decide, by decide, by decide⟩,
    no_cross_group_leakage [3, 3, 3, 3, 3, 3] [3] [1, 1, 1, 2, 2, 2] 5 3 0
      (by decide) (by decide) (by decide) (by decide) (by decide)⟩

/-- C7 counterexample: csr_cum_sum and extract_features perform no window
validation; with window size 0 the call returns the all-zero feature
matrix instead of failing, and with window size 5 on a sequence of length
2 it also returns an ordinary result. -/
theorem extract_features_invalid_window_returns_result :
    extract_features (one_hot_csr [0, 1] [0, 1]) [7, 7] 0 0 0 = 0 ∧
    extract_features (one_hot_csr [0, 1] [0, 1]) [7, 7] 0 0 1 = 0 ∧
    extract_features (one_hot_csr [0, 1] [0, 1]) [7, 7] 0 1 2 = 0 ∧
    extract_features (one_hot_csr [0, 1] [0, 1]) [7, 7] 0 1 3 = 0 ∧
    extract_features (one_hot_csr [0, 1] [0, 1]) [7, 7] 5 1 0 = 1 := by
  decide

/-- C7 amended: the windowed accumulator validates nothing about the
window size: window 0 (the rendering of window size at most 0) yields the
all-zero accumulator, and any window size at least the number of rows
yields exactly the result for window equal to the number of rows, with no
InvalidWindow failure in either case. -/
theorem csr_cum_sum_no_window_validation (A : Csr) (company : List Nat) (ab : Bool)
    (i c w : Nat) (h : A.wf) (hn : 1 ≤ A.rows) :
    csr_cum_sum A company 0 ab i c = 0 ∧
    (A.rows ≤ w → csr_cum_sum A company w ab i c = csr_cum_sum A company A.rows ab i c) := by
  constructor
  · rfl
  · intro hwge
    induction w, hwge using Nat.le_induction with
    | base => rfl
    | succ w hge ih =>
        rw [csr_cum_sum_succ, ih]
        have hz : (shift_iter A ab (w + 1)).entry i c = 0 := by
          cases ab
          · rw [shift_iter_entry_up h hn (w + 1) i c,
              if_neg (show ¬(i + (w + 1) < A.rows) by omega)]
          · rw [shift_iter_entry_down h hn (w + 1) i c,
              if_neg (show ¬(w + 1 ≤ i ∧ i < A.rows) by omega)]
        rw [hz, mul_zero, add_zero]

theorem csr_cum_sum_no_window_validation_witness :
    (sampleB.wf ∧ 1 ≤ sampleB.rows) ∧
    (csr_cum_sum sampleB [7, 7] 0 true 0 0 = 0 ∧
      (sampleB.rows ≤ 9 →
        csr_cum_sum sampleB [7, 7] 9 true 0 0 =
          csr_cum_sum sampleB [7, 7] sampleB.rows true 0 0)) :=
  ⟨⟨by decide, by decide⟩,
    csr_cum_sum_no_window_validation sampleB [7, 7] true 0 0 9 (by decide) (by decide)⟩

/-- C8: the accumulated count at any position and category is
non-decreasing in the window size, in both directions. -/
theorem cum_sum_monotone_in_window (words vocab company : List Nat) (ab : Bool)
    (i c w w' : Nat) (h1 : 1 ≤ w) (h2 : w ≤ w') :
    csr_cum_sum (one_hot_csr words vocab) company w ab i c ≤
      csr_cum_sum (one_hot_csr words vocab) company w' ab i c := by
  induction w', h2 using Nat.le_induction with
  | base => exact le_refl _
  | succ w' hww ih =>
      refine le_trans ih ?_
      rw [csr_cum_sum_succ]
      have hm := mask_getD_nonneg company
        (((w' + 1 : Nat) : Int) * (if ab then 1 else -1)) i
      have he := entry_nonneg
        (shift_iter_data_nonneg (one_hot_data_nonneg words vocab) ab (w' + 1)) i c
      exact le_add_of_nonneg_right (mul_nonneg hm he)

theorem cum_sum_monotone_in_window_witness :
    (1 ≤ 1 ∧ 1 ≤ 3) ∧
    csr_cum_sum (one_hot_csr [0, 1, 2, 0] [0, 1, 2]) [7, 7, 7, 7] 1 true 3 0 ≤
      csr_cum_sum (one_hot_csr [0, 1, 2, 0] [0, 1, 2]) [7, 7, 7, 7] 3 true 3 0 :=
  ⟨⟨by decide, by decide⟩,
    cum_sum_monotone_in_window [0, 1, 2, 0] [0, 1, 2] [7, 7, 7, 7] true 3 0 1 3
      (by decide) (by decide)⟩

/-! Lemmas about the boundary-forced mask and its accumulator. -/

theorem forced_mask_length (v : List Nat) (d : Nat) (ab : Bool) :
    (is_same_after_shift_forced v d ab).length = v.length := by
  unfold is_same_after_shift_forced
  rw [List.length_map, List.length_range]

theorem forced_mask_getD_above {v : List Nat} {i : Nat} (hi : i < v.length) (d : Nat) :
    (is_same_after_shift_forced v d true).getD i 0 =
      if i < d then 0
      else (is_same_after_shift v ((d : Int) * (if (true : Bool) then 1 else -1))).getD i 0 :=
  getD_map_range _ 0 hi

theorem forced_mask_getD_below {v : List Nat} {i : Nat} (hi : i < v.length) (d : Nat) :
    (is_same_after_shift_forced v d false).getD i 0 =
      if v.length ≤ i + d then 0
      else (is_same_after_shift v ((d : Int) * (if (false : Bool) then 1 else -1))).getD i 0 :=
  getD_map_range _ 0 hi

theorem cum_sum_state_forced_succ (A : Csr) (comp : List Nat) (ab : Bool) (w : Nat) :
    cum_sum_state_forced A comp ab (w + 1) =
      cum_sum_step_forced comp ab (cum_sum_state_forced A comp ab w) (w + 1) := by
  unfold cum_sum_state_forced
  rw [List.range_succ, List.map_append, List.foldl_append]
  rfl

theorem cum_sum_state_forced_fst (A : Csr) (comp : List Nat) (ab : Bool) (w : Nat) :
    (cum_sum_state_forced A comp ab w).1 = shift_iter A ab w := by
  induction w with
  | zero => rfl
  | succ w ih =>
      rw [cum_sum_state_forced_succ]
      show csr_shift (cum_sum_state_forced A comp ab w).1 ab = _
      rw [ih]
      rfl

theorem csr_cum_sum_forced_succ (A : Csr) (comp : List Nat) (ab : Bool) (w i c : Nat) :
    csr_cum_sum_forced A comp (w + 1) ab i c =
      csr_cum_sum_forced A comp w ab i c +
        (is_same_after_shift_forced comp (w + 1) ab).getD i 0 *
          (shift_iter A ab (w + 1)).entry i c := by
  unfold csr_cum_sum_forced
  rw [cum_sum_state_forced_succ]
  show (cum_sum_state_forced A comp ab w).2 i c +
      (is_same_after_shift_forced comp (w + 1) ab).getD i 0 *
        (csr_shift (cum_sum_state_forced A comp ab w).1 ab).entry i c = _
  rw [cum_sum_state_forced_fst]
  rfl

/-- C10: the accumulator is unchanged whether the per-step mask is the
plain rotated comparison or that comparison with its wrapped-around
boundary entries forced to 0, because after d cumulative shifts the
working copy's rows at those boundary positions are empty, so the
spurious wrapped comparisons never contribute. -/
theorem cum_sum_plain_eq_forced_mask (A : Csr) (company : List Nat) (ab : Bool)
    (h : A.wf) (hn : 1 ≤ A.rows) (hlen : A.rows = company.length) :
    (∀ w i c, csr_cum_sum A company w ab i c = csr_cum_sum_forced A company w ab i c) ∧
    (∀ d i, 1 ≤ d →
      ((ab = true ∧ i < d) ∨ (ab = false ∧ A.rows ≤ i + d)) →
      (shift_iter A ab d).row i = []) := by
  constructor
  · intro w i c
    induction w with
    | zero => rfl
    | succ w ih =>
        rw [csr_cum_sum_succ, csr_cum_sum_forced_succ, ih]
        congr 1
        by_cases hi : i < company.length
        · cases ab
          · rw [forced_mask_getD_below hi (w + 1)]
            by_cases hb : company.length ≤ i + (w + 1)
            · rw [if_pos hb]
              have hz : (shift_iter A false (w + 1)).entry i c = 0 := by
                rw [shift_iter_entry_up h hn (w + 1) i c,
                  if_neg (show ¬(i + (w + 1) < A.rows) by omega)]
              rw [hz, mul_zero, mul_zero]
            · rw [if_neg hb]
          · rw [forced_mask_getD_above hi (w + 1)]
            by_cases hb : i < w + 1
            · rw [if_pos hb]
              have hz : (shift_iter A true (w + 1)).entry i c = 0 := by
                rw [shift_iter_entry_down h hn (w + 1) i c,
                  if_neg (show ¬(w + 1 ≤ i ∧ i < A.rows) by omega)]
              rw [hz, mul_zero, mul_zero]
            · rw [if_neg hb]
        · rw [getD_of_length_le 0 (by rw [is_same_length]; omega),
            getD_of_length_le 0 (by rw [forced_mask_length]; omega)]
  · intro d i hd hcase
    rcases hcase with ⟨hab, hlt⟩ | ⟨hab, hge⟩
    · subst hab
      rw [shift_iter_row_down h hn d i, if_neg (show ¬(d ≤ i ∧ i < A.rows) by omega)]
    · subst hab
      rw [shift_iter_row_up h hn d i, if_neg (show ¬(i + d < A.rows) by omega)]

theorem cum_sum_plain_eq_forced_mask_witness :
    (sampleB.wf ∧ 1 ≤ sampleB.rows ∧ sampleB.rows = ([7, 8] : List Nat).length) ∧
    ((∀ w i c, csr_cum_sum sampleB [7, 8] w true i c =
        csr_cum_sum_forced sampleB [7, 8] w true i c) ∧
      (∀ d i, 1 ≤ d →
        ((true = true ∧ i < d) ∨ (true = false ∧ sampleB.rows ≤ i + d)) →
        (shift_iter sampleB true d).row i = [])) :=
  ⟨⟨by decide, by decide, by decide⟩,
    cum_sum_plain_eq_forced_mask sampleB [7, 8] true (by decide) (by decide) (by decide)⟩

/-! Reduction of the direct sliding-window oracle to direction-free form,
and its recurrence in the window size. -/

theorem direct_window_count_above_eq (words company : List Nat) (w i lbl : Nat) :
    direct_window_count words company w true i lbl =
      ((Finset.range words.length).filter (fun j =>
        company.getD j 0 = company.getD i 0 ∧ (1 ≤ i - j ∧ i - j ≤ w) ∧
        words.getD j 0 = lbl)).card := by
  unfold direct_window_count
  congr 1

theorem direct_window_count_below_eq (words company : List Nat) (w i lbl : Nat) :
    direct_window_count words company w false i lbl =
      ((Finset.range words.length).filter (fun j =>
        company.getD j 0 = company.getD i 0 ∧ (1 ≤ j - i ∧ j - i ≤ w) ∧
        words.getD j 0 = lbl)).card := by
  unfold direct_window_count
  congr 1

theorem direct_window_count_zero (words company : List Nat) (ab : Bool) (i lbl : Nat) :
    direct_window_count words company 0 ab i lbl = 0 := by
  cases ab
  · rw [direct_window_count_below_eq]
    refine Finset.card_eq_zero.mpr (Finset.filter_eq_empty_iff.mpr ?_)
    intro j hj hcond
    obtain ⟨h1, h2, h3⟩ := hcond
    omega
  · rw [direct_window_count_above_eq]
    refine Finset.card_eq_zero.mpr (Finset.filter_eq_empty_iff.mpr ?_)
    intro j hj hcond
    obtain ⟨h1, h2, h3⟩ := hcond
    omega

theorem direct_window_count_succ_above (words company : List Nat) (w i lbl : Nat)
    (hi : i < words.length) :
    direct_window_count words company (w + 1) true i lbl =
      direct_window_count words company w true i lbl +
        (if w + 1 ≤ i ∧ company.getD (i - (w + 1)) 0 = company.getD i 0 ∧
            words.getD (i - (w + 1)) 0 = lbl then 1 else 0) := by
  rw [direct_window_count_above_eq, direct_window_count_above_eq]
  have hunion : (Finset.range words.length).filter (fun j =>
        company.getD j 0 = company.getD i 0 ∧ (1 ≤ i - j ∧ i - j ≤ w + 1) ∧
        words.getD j 0 = lbl) =
      ((Finset.range words.length).filter (fun j =>
        company.getD j 0 = company.getD i 0 ∧ (1 ≤ i - j ∧ i - j ≤ w) ∧
        words.getD j 0 = lbl)) ∪
      ((Finset.range words.length).filter (fun j =>
        company.getD j 0 = company.getD i 0 ∧ i - j = w + 1 ∧
        words.getD j 0 = lbl)) := by
    ext j
    simp only [Finset.mem_filter, Finset.mem_union, Finset.mem_range]
    constructor
    · rintro ⟨hj, hc, ⟨hw1, hw2⟩, hl⟩
      by_cases hcase : i - j ≤ w
      · exact Or.inl ⟨hj, hc, ⟨hw1, hcase⟩, hl⟩
      · exact Or.inr ⟨hj, hc, by omega, hl⟩
    · rintro (⟨hj, hc, ⟨hw1, hw2⟩, hl⟩ | ⟨hj, hc, hw2, hl⟩)
      · exact ⟨hj, hc, ⟨hw1, by omega⟩, hl⟩
      · exact ⟨hj, hc, ⟨by omega, by omega⟩, hl⟩
  have hdisj : Disjoint
      ((Finset.range words.length).filter (fun j =>
        company.getD j 0 = company.getD i 0 ∧ (1 ≤ i - j ∧ i - j ≤ w) ∧
        words.getD j 0 = lbl))
      ((Finset.range words.length).filter (fun j =>
        company.getD j 0 = company.getD i 0 ∧ i - j = w + 1 ∧
        words.getD j 0 = lbl)) := by
    refine Finset.disjoint_left.mpr ?_
    intro a ha hb
    simp only [Finset.mem_filter] at ha hb
    obtain ⟨_, _, ⟨_, hw2⟩, _⟩ := ha
    obtain ⟨_, _, hw3, _⟩ := hb
    omega
  rw [hunion, Finset.card_union_of_disjoint hdisj]
  congr 1
  by_cases hcond : w + 1 ≤ i ∧ company.getD (i - (w + 1)) 0 = company.getD i 0 ∧
      words.getD (i - (w + 1)) 0 = lbl
  · rw [if_pos hcond]
    obtain ⟨hw1, hcomp, hlbl⟩ := hcond
    refine Finset.card_eq_one.mpr ⟨i - (w + 1), ?_⟩
    ext j
    simp only [Finset.mem_filter, Finset.mem_range, Finset.mem_singleton]
    constructor
    · rintro ⟨hj, hc, hsub, hl⟩
      omega
    · rintro rfl
      exact ⟨by omega, hcomp, by omega, hlbl⟩
  · rw [if_neg hcond]
    refine Finset.card_eq_zero.mpr (Finset.filter_eq_empty_iff.mpr ?_)
    intro j hj hcon2
    obtain ⟨hc, hsub, hl⟩ := hcon2
    have hj' : j = i - (w + 1) := by omega
    subst hj'
    exact hcond ⟨by omega, hc, hl⟩

theorem direct_window_count_succ_below (words company : List Nat) (w i lbl : Nat)
    (hi : i < words.length) :
    direct_window_count words company (w + 1) false i lbl =
      direct_window_count words company w false i lbl +
        (if i + (w + 1) < words.length ∧
            company.getD (i + (w + 1)) 0 = company.getD i 0 ∧
            words.getD (i + (w + 1)) 0 = lbl then 1 else 0) := by
  rw [direct_window_count_below_eq, direct_window_count_below_eq]
  have hunion : (Finset.range words.length).filter (fun j =>
        company.getD j 0 = company.getD i 0 ∧ (1 ≤ j - i ∧ j - i ≤ w + 1) ∧
        words.getD j 0 = lbl) =
      ((Finset.range words.length).filter (fun j =>
        company.getD j 0 = company.getD i 0 ∧ (1 ≤ j - i ∧ j - i ≤ w) ∧
        words.getD j 0 = lbl)) ∪
      ((Finset.range words.length).filter (fun j =>
        company.getD j 0 = company.getD i 0 ∧ j - i = w + 1 ∧
        words.getD j 0 = lbl)) := by
    ext j
    simp only [Finset.mem_filter, Finset.mem_union, Finset.mem_range]
    constructor
    · rintro ⟨hj, hc, ⟨hw1, hw2⟩, hl⟩
      by_cases hcase : j - i ≤ w
      · exact Or.inl ⟨hj, hc, ⟨hw1, hcase⟩, hl⟩
      · exact Or.inr ⟨hj, hc, by omega, hl⟩
    · rintro (⟨hj, hc, ⟨hw1, hw2⟩, hl⟩ | ⟨hj, hc, hw2, hl⟩)
      · exact ⟨hj, hc, ⟨hw1, by omega⟩, hl⟩
      · exact ⟨hj, hc, ⟨by omega, by omega⟩, hl⟩
  have hdisj : Disjoint
      ((Finset.range words.length).filter (fun j =>
        company.getD j 0 = company.getD i 0 ∧ (1 ≤ j - i ∧ j - i ≤ w) ∧
        words.getD j 0 = lbl))
      ((Finset.range words.length).filter (fun j =>
        company.getD j 0 = company.getD i 0 ∧ j - i = w + 1 ∧
        words.getD j 0 = lbl)) := by
    refine Finset.disjoint_left.mpr ?_
    intro a ha hb
    simp only [Finset.mem_filter] at ha hb
    obtain ⟨_, _, ⟨_, hw2⟩, _⟩ := ha
    obtain ⟨_, _, hw3, _⟩ := hb
    omega
  rw [hunion, Finset.card_union_of_disjoint hdisj]
  congr 1
  by_cases hcond : i + (w + 1) < words.length ∧
      company.getD (i + (w + 1)) 0 = company.getD i 0 ∧
      words.getD (i + (w + 1)) 0 = lbl
  · rw [if_pos hcond]
    obtain ⟨hw1, hcomp, hlbl⟩ := hcond
    refine Finset.card_eq_one.mpr ⟨i + (w + 1), ?_⟩
    ext j
    simp only [Finset.mem_filter, Finset.mem_range, Finset.mem_singleton]
    constructor
    · rintro ⟨hj, hc, hsub, hl⟩
      omega
    · rintro rfl
      exact ⟨by omega, hcomp, by omega, hlbl⟩
  · rw [if_neg hcond]
    refine Finset.card_eq_zero.mpr (Finset.filter_eq_empty_iff.mpr ?_)
    intro j hj hcon2
    obtain ⟨hc, hsub, hl⟩ := hcon2
    have hj2 : j < words.length := Finset.mem_range.mp hj
    have hj' : j = i + (w + 1) := by omega
    subst hj'
    exact hcond ⟨by omega, hc, hl⟩

theorem cum_sum_eq_direct_above (words vocab company : List Nat)
    (hlen : company.length = words.length) (hnd : vocab.Nodup) {i c : Nat}
    (hc : c < vocab.length) (hi : i < words.length) :
    ∀ w, csr_cum_sum (one_hot_csr words vocab) company w true i c =
      ((direct_window_count words company w true i (vocab.getD c 0) : Nat) : Int) := by
  intro w
  induction w with
  | zero =>
      rw [csr_cum_sum_zero, direct_window_count_zero]
      rfl
  | succ w ih =>
      rw [csr_cum_sum_succ, ih, direct_window_count_succ_above words company w i _ hi]
      conv_rhs => rw [Nat.cast_add]
      congr 1
      have hwf := one_hot_wf words vocab
      have hn1 : 1 ≤ (one_hot_csr words vocab).rows := by rw [one_hot_rows]; omega
      rw [shift_iter_entry_down hwf hn1 (w + 1) i c, dir_one, mul_one]
      by_cases hd : w + 1 ≤ i
      · rw [if_pos (show w + 1 ≤ i ∧ i < (one_hot_csr words vocab).rows by
          rw [one_hot_rows]; exact ⟨hd, hi⟩)]
        rw [mask_getD_above (show i < company.length by omega) hd,
          one_hot_entry words vocab hnd (show i - (w + 1) < words.length by omega) hc]
        by_cases h1 : company.getD i 0 = company.getD (i - (w + 1)) 0
        · by_cases h2 : words.getD (i - (w + 1)) 0 = vocab.getD c 0
          · rw [if_pos h1, if_pos h2, if_pos ⟨hd, h1.symm, h2⟩]
            norm_num
          · rw [if_pos h1, if_neg h2, if_neg (fun hcon => h2 hcon.2.2)]
            norm_num
        · rw [if_neg h1, if_neg (show ¬(w + 1 ≤ i ∧
              company.getD (i - (w + 1)) 0 = company.getD i 0 ∧
              words.getD (i - (w + 1)) 0 = vocab.getD c 0) from
            fun hcon => h1 hcon.2.1.symm)]
          norm_num
      · rw [if_neg (show ¬(w + 1 ≤ i ∧ i < (one_hot_csr words vocab).rows) from
            fun hcon => hd hcon.1),
          if_neg (show ¬(w + 1 ≤ i ∧
              company.getD (i - (w + 1)) 0 = company.getD i 0 ∧
              words.getD (i - (w + 1)) 0 = vocab.getD c 0) from
            fun hcon => hd hcon.1)]
        norm_num

theorem cum_sum_eq_direct_below (words vocab company : List Nat)
    (hlen : company.length = words.length) (hnd : vocab.Nodup) {i c : Nat}
    (hc : c < vocab.length) (hi : i < words.length) :
    ∀ w, csr_cum_sum (one_hot_csr words vocab) company w false i c =
      ((direct_window_count words company w false i (vocab.getD c 0) : Nat) : Int) := by
  intro w
  induction w with
  | zero =>
      rw [csr_cum_sum_zero, direct_window_count_zero]
      rfl
  | succ w ih =>
      rw [csr_cum_sum_succ, ih, direct_window_count_succ_below words company w i _ hi]
      conv_rhs => rw [Nat.cast_add]
      congr 1
      have hwf := one_hot_wf words vocab
      have hn1 : 1 ≤ (one_hot_csr words vocab).rows := by rw [one_hot_rows]; omega
      rw [shift_iter_entry_up hwf hn1 (w + 1) i c, dir_negone, mul_neg_one, one_hot_rows]
      by_cases hd : i + (w + 1) < words.length
      · rw [if_pos hd,
          mask_getD_below (show i + (w + 1) < company.length by omega),
          one_hot_entry words vocab hnd (show i + (w + 1) < words.length by omega) hc]
        by_cases h1 : company.getD i 0 = company.getD (i + (w + 1)) 0
        · by_cases h2 : words.getD (i + (w + 1)) 0 = vocab.getD c 0
          · rw [if_pos h1, if_pos h2, if_pos ⟨hd, h1.symm, h2⟩]
            norm_num
          · rw [if_pos h1, if_neg h2, if_neg (fun hcon => h2 hcon.2.2)]
            norm_num
        · rw [if_neg h1, if_neg (show ¬(i + (w + 1) < words.length ∧
              company.getD (i + (w + 1)) 0 = company.getD i 0 ∧
              words.getD (i + (w + 1)) 0 = vocab.getD c 0) from
            fun hcon => h1 hcon.2.1.symm)]
          norm_num
      · rw [if_neg hd, if_neg (show ¬(i + (w + 1) < words.length ∧
              company.getD (i + (w + 1)) 0 = company.getD i 0 ∧
              words.getD (i + (w + 1)) 0 = vocab.getD c 0) from
            fun hcon => hd hcon.1)]
        norm_num

/-- C1: for contiguous-run group vectors and duplicate-free vocabularies,
the accumulated counts assembled by extract_features into the (N, 2K)
output agree at every position with the direct sliding-window scan:
column c holds the count of same-group positions at distance 1..W earlier
bearing label c, and column K + c the same for later positions. -/
theorem cum_sum_matches_direct_window (words vocab company : List Nat) (w i c : Nat)
    (hlen : company.length = words.length) (hcr : ContiguousRuns company)
    (hnd : vocab.Nodup) (hw : 1 ≤ w) (hc : c < vocab.length) (hi : i < words.length) :
    extract_features (one_hot_csr words vocab) company w i c =
      ((direct_window_count words company w true i (vocab.getD c 0) : Nat) : Int) ∧
    extract_features (one_hot_csr words vocab) company w i (vocab.length + c) =
      ((direct_window_count words company w false i (vocab.getD c 0) : Nat) : Int) := by
  constructor
  · show (if c < (one_hot_csr words vocab).cols then _ else _) = _
    rw [one_hot_cols, if_pos hc]
    exact cum_sum_eq_direct_above words vocab company hlen hnd hc hi w
  · show (if vocab.length + c < (one_hot_csr words vocab).cols then _ else _) = _
    rw [one_hot_cols, if_neg (by omega)]
    have he : vocab.length + c - vocab.length = c := by omega
    rw [he]
    exact cum_sum_eq_direct_below words vocab company hlen hnd hc hi w

theorem cum_sum_matches_direct_window_witness :
    (([7, 7, 7, 7] : List Nat).length = ([0, 1, 2, 0] : List Nat).length ∧
      ContiguousRuns [7, 7, 7, 7] ∧ ([0, 1, 2] : List Nat).Nodup ∧
      1 ≤ 1 ∧ 0 < ([0, 1, 2] : List Nat).length ∧ 3 < ([0, 1, 2, 0] : List Nat).length) ∧
    (extract_features (one_hot_csr [0, 1, 2, 0] [0, 1, 2]) [7, 7, 7, 7] 1 3 0 =
      ((direct_window_count [0, 1, 2, 0] [7, 7, 7, 7] 1 true 3
        (([0, 1, 2] : List Nat).getD 0 0) : Nat) : Int) ∧
    extract_features (one_hot_csr [0, 1, 2, 0] [0, 1, 2]) [7, 7, 7, 7] 1 3
        (([0, 1, 2] : List Nat).length + 0) =
      ((direct_window_count [0, 1, 2, 0] [7, 7, 7, 7] 1 false 3
        (([0, 1, 2] : List Nat).getD 0 0) : Nat) : Int)) :=
  ⟨⟨by decide, by decide, by decide, by decide, by decide, by decide⟩,
    cum_sum_matches_direct_window [0, 1, 2, 0] [0, 1, 2] [7, 7, 7, 7] 1 3 0
      (by decide) (by decide) (by decide) (by decide) (by decide) (by decide)⟩
